import Mathlib

/-!
# Verification of the CodeBot symbol-graph engine

A shallow embedding, in Lean 4, of the core of the CodeBot repository:
the Python-source symbol extractor (`src/core/parser.py`), the dependency
linker (`add_dependencies`), the module-graph builder (`src/arch.py`),
the retrieval-unit projection (`src/core/retrieval.py`) and the
scope-based retrieval filter (`src/core/embedding.py`).

Conventions used throughout:
* Python strings are Lean `String`s; character-level reasoning goes
  through `String.data`.
* Python `list` is `List`; Python `dict` is an association list with
  insertion-ordered keys and last-write-wins values (`dictInsert`);
  Python `set` is a duplicate-free `List` built with `addIfAbsent`,
  whose *iteration order* is abstracted by an explicit `rank` parameter
  (Python enumerates a `set` of strings in an order determined by the
  process-wide string hash seed).
* Machine paths follow the repository's own convention: the code joins
  and splits path components with `'\\'` (it targets Windows `pathlib`
  rendering, see e.g. `extract_module_exports` and `is_test_file`).
* Fallible operations return `Except`/`Option`.
-/

set_option autoImplicit false
set_option maxRecDepth 8000
set_option maxHeartbeats 1000000

namespace CodeBot

/-! ## Small Python-semantics helpers -/

/-- Insert into an insertion-ordered dictionary (`d[k] = v`): an existing
key keeps its position and gets the new value; a new key goes to the end. -/
def dictInsert {α β : Type} [DecidableEq α] (k : α) (v : β) :
    List (α × β) → List (α × β)
  | [] => [(k, v)]
  | (k', v') :: rest =>
      if k' = k then (k, v) :: rest else (k', v') :: dictInsert k v rest

/-- Dictionary lookup (`d.get(k)` / `d[k]`). -/
def dictLookup {α β : Type} [DecidableEq α] (k : α) :
    List (α × β) → Option β
  | [] => none
  | (k', v') :: rest => if k' = k then some v' else dictLookup k rest

/-- The values of a dictionary in key-insertion order (`d.values()`). -/
def dictValues {α β : Type} (d : List (α × β)) : List β := d.map Prod.snd

/-- `s.add(x)` on a Python set represented as a duplicate-free list. -/
def addIfAbsent {α : Type} [DecidableEq α] (x : α) (l : List α) : List α :=
  if x ∈ l then l else l ++ [x]

/-- `set(xs)` as a duplicate-free list keeping first occurrences. -/
def pySetOf {α : Type} [DecidableEq α] (xs : List α) : List α :=
  xs.foldl (fun acc x => addIfAbsent x acc) []

/-- Insert into a list sorted by the boolean relation `le`. -/
def insertBy {α : Type} (le : α → α → Bool) (x : α) : List α → List α
  | [] => [x]
  | y :: ys => if le x y then x :: y :: ys else y :: insertBy le x ys

/-- Insertion sort by the boolean relation `le`. -/
def sortBy {α : Type} (le : α → α → Bool) : List α → List α
  | [] => []
  | x :: xs => insertBy le x (sortBy le xs)

/-- Lexicographic (code-point) comparison of character lists, the order
Python uses to compare `str`s. -/
def lexLe : List Char → List Char → Bool
  | [], _ => true
  | _ :: _, [] => false
  | c :: cs, d :: ds =>
      if c = d then lexLe cs ds
      else decide (c.toNat < d.toNat)

/-- Python `a <= b` on strings. -/
def strLe (a b : String) : Bool := lexLe a.data b.data

/-- Python `sorted(s)` for a set `s` of strings (represented as a
duplicate-free list): the ascending enumeration of its elements. -/
def pySorted (l : List String) : List String := sortBy strLe l

/-- Python `sep.join(parts)`. -/
def pyJoin (sep : String) : List String → String
  | [] => ""
  | [x] => x
  | x :: y :: rest => x ++ sep ++ pyJoin sep (y :: rest)

/-- Split a character list at every occurrence of `sep`
(the list-level core of Python `str.split`). -/
def splitChar (sep : Char) : List Char → List (List Char)
  | [] => [[]]
  | c :: cs =>
      match splitChar sep cs with
      | [] => [[c]]
      | g :: gs => if c = sep then [] :: g :: gs else (c :: g) :: gs

/-- Python `s.split(sep)` for a one-character separator. -/
def pySplit (sep : Char) (s : String) : List String :=
  (splitChar sep s.data).map (fun cs => ⟨cs⟩)

/-- ASCII lower-casing of one character, as Python `str.lower` acts on
the ASCII range (all identifiers and path names in play are ASCII). -/
def lowerChar : Char → Char
  | 'A' => 'a' | 'B' => 'b' | 'C' => 'c' | 'D' => 'd' | 'E' => 'e'
  | 'F' => 'f' | 'G' => 'g' | 'H' => 'h' | 'I' => 'i' | 'J' => 'j'
  | 'K' => 'k' | 'L' => 'l' | 'M' => 'm' | 'N' => 'n' | 'O' => 'o'
  | 'P' => 'p' | 'Q' => 'q' | 'R' => 'r' | 'S' => 's' | 'T' => 't'
  | 'U' => 'u' | 'V' => 'v' | 'W' => 'w' | 'X' => 'x' | 'Y' => 'y'
  | 'Z' => 'z'
  | c => c

/-- Join character-list chunks with a separator character (the
character-level counterpart of `pyJoin`). -/
def joinChar (sep : Char) : List (List Char) → List Char
  | [] => []
  | [x] => x
  | x :: y :: rest => x ++ sep :: joinChar sep (y :: rest)

/-- Python `s.lower()`. -/
def pyLower (s : String) : String := ⟨s.data.map lowerChar⟩

/-- Python `s.startswith(p)`. -/
def pyStartsWith (s p : String) : Bool := p.data.isPrefixOf s.data

/-- Python `s.endswith(p)`. -/
def pyEndsWith (s p : String) : Bool := p.data.isSuffixOf s.data

/-- Python `needle in hay` on strings (substring containment). -/
def strContains (hay needle : String) : Prop := needle.data <:+: hay.data

instance (hay needle : String) : Decidable (strContains hay needle) :=
  inferInstanceAs (Decidable (needle.data <:+: hay.data))

/-! ## `src/core/embedding.py` — scope-based retrieval filter

`ScopeRetriever._get_relevant_documents` only reads
`doc.metadata.get("symbol_type")` from each candidate document, and
carries the similarity score along without inspecting it; the score
type is therefore left abstract.  The upstream
`vectorstore.similarity_search_with_score(query, k)` call is modelled
as a function argument `search` from the requested `k` to the ranked
candidate list. -/

/-- A LangChain `Document` as the retriever sees it: only the
`symbol_type` metadata entry matters (`metadata.get` may miss). -/
structure EmbDoc where
  symbolType : Option String
  deriving DecidableEq, Repr

def SCOPE_ELIGIBILITY : List (String × List String) :=
  [("symbol", ["function", "class", "variable"]),
   ("module", ["module"]),
   ("system", ["module"])]

def RECALL_K_BY_SCOPE : List (String × Nat) :=
  [("symbol", 10), ("module", 30), ("system", 50)]

def FINAL_K_BY_SCOPE : List (String × Nat) :=
  [("symbol", 15), ("module", 10), ("system", 10)]

/-- `metadata.get("symbol_type") in eligible_types`: a missing key
(`None`) is in no set of strings. -/
def docEligible (eligibleTypes : List String) (d : EmbDoc) : Bool :=
  match d.symbolType with
  | some t => decide (t ∈ eligibleTypes)
  | none => false

/-- `ScopeRetriever._get_relevant_documents`. -/
def getRelevantDocuments {σ : Type} (search : Nat → List (EmbDoc × σ))
    (scope : String) : List EmbDoc :=
  let recallK := (dictLookup scope RECALL_K_BY_SCOPE).getD 30
  let candidates := search recallK
  let eligibleTypes := (dictLookup scope SCOPE_ELIGIBILITY).getD []
  let eligible := candidates.filter (fun p => docEligible eligibleTypes p.1)
  if eligible.isEmpty then []
  else (eligible.take ((dictLookup scope FINAL_K_BY_SCOPE).getD 5)).map Prod.fst

/-! ## A fragment of the Python AST

`parser.py` consumes `ast.parse` output.  We model the statement and
expression forms the parser inspects: imports, (async) function and
class definitions, plain and annotated assignments, expression
statements (docstrings, calls) and `pass`.  Line numbers are carried as
data, 1-based, exactly as `ast` reports them; `end_lineno` is optional
(`getattr(node, "end_lineno", None)`). -/

inductive PyExpr where
  | name (id : String)
  | attr (value : PyExpr) (attrName : String)
  | call (func : PyExpr) (args : List PyExpr)
  | strConst (s : String)

/-- One `alias` in an import statement: the imported name and its
optional `as` binding. -/
structure ImportAlias where
  aliasName : String
  asname : Option String
  deriving DecidableEq, Repr

inductive PyStmt where
  | importStmt (names : List ImportAlias)
  | importFrom (module : Option String) (names : List ImportAlias)
  | functionDef (fname : String) (lineno : Nat) (endLineno : Option Nat)
      (body : List PyStmt) (isAsync : Bool)
  | classDef (cname : String) (lineno : Nat) (endLineno : Option Nat)
      (body : List PyStmt)
  | assign (targets : List PyExpr) (value : PyExpr)
      (lineno : Nat) (endLineno : Option Nat)
  | annAssign (target : PyExpr) (value : Option PyExpr)
      (lineno : Nat) (endLineno : Option Nat)
  | exprStmt (value : PyExpr) (lineno : Nat) (endLineno : Option Nat)
  | passStmt

mutual
/-- All statement nodes of a subtree, the statement part of
`ast.walk` (the visitor of `parser.py` never depends on BFS order). -/
def walkStmt : PyStmt → List PyStmt
  | .functionDef n l e body a => .functionDef n l e body a :: walkStmtList body
  | .classDef n l e body => .classDef n l e body :: walkStmtList body
  | s => [s]

def walkStmtList : List PyStmt → List PyStmt
  | [] => []
  | s :: rest => walkStmt s ++ walkStmtList rest
end

mutual
/-- All expression nodes of an expression subtree (`ast.walk`). -/
def walkExpr : PyExpr → List PyExpr
  | .name i => [.name i]
  | .attr v a => .attr v a :: walkExpr v
  | .call f args => .call f args :: (walkExpr f ++ walkExprList args)
  | .strConst s => [.strConst s]

def walkExprList : List PyExpr → List PyExpr
  | [] => []
  | e :: rest => walkExpr e ++ walkExprList rest
end

/-- The expressions hanging directly off one statement (the parts of
the modelled fragment that `extract_used_names` can reach). -/
def stmtExprs : PyStmt → List PyExpr
  | .assign targets value _ _ => targets ++ [value]
  | .annAssign target value _ _ => target :: value.toList
  | .exprStmt e _ _ => [e]
  | _ => []

/-- `build_import_map`: maps each locally bound name (its alias if any)
to the full dotted path of what it imports. -/
def buildImportMap (body : List PyStmt) : List (String × String) :=
  (walkStmtList body).foldl
    (fun m s =>
      match s with
      | .importStmt names =>
          names.foldl
            (fun m' a => dictInsert (a.asname.getD a.aliasName) a.aliasName m') m
      | .importFrom module names =>
          let moduleStr := match module with | some m' => m' | none => ""
          names.foldl
            (fun m' a =>
              dictInsert (a.asname.getD a.aliasName)
                (moduleStr ++ "." ++ a.aliasName) m') m
      | _ => m) []

/-- `extract_used_names` on one statement node: every `Name`'s id and
every `Attribute`'s root `Name` id anywhere in the node's subtree.
Returned as a list in traversal order; consumers treat it as a set. -/
def usedNamesStmt (node : PyStmt) : List String :=
  (((walkStmt node).map (fun s => walkExprList (stmtExprs s))).flatten).foldr
    (fun e acc =>
      match e with
      | .name i => i :: acc
      | .attr (.name i) _ => i :: acc
      | _ => acc) []

/-- `ast.get_docstring`: the leading string-literal expression
statement of a body, if any. -/
def getDocstring : List PyStmt → Option String
  | .exprStmt (.strConst s) _ _ :: _ => some s
  | _ => none

/-- Enumerate a Python `set` of strings: distinct elements ordered by
the process-wide string-hash `rank` (Python's set order is a function
of the interpreter's hash seed, not of insertion order). -/
def setToList (rank : String → Nat) (xs : List String) : List String :=
  sortBy (fun a b => decide (rank a ≤ rank b)) (pySetOf xs)

mutual
/-- `ast.unparse` on the modelled expression fragment. -/
def pyUnparse : PyExpr → String
  | .name i => i
  | .attr v a => pyUnparse v ++ "." ++ a
  | .call f args => pyUnparse f ++ "(" ++ pyJoin ", " (pyUnparseList args) ++ ")"
  | .strConst s => "'" ++ s ++ "'"

def pyUnparseList : List PyExpr → List String
  | [] => []
  | e :: rest => pyUnparse e :: pyUnparseList rest
end

/-! ## `parser.py` — symbol records and the per-file visitor

A parsed symbol is a Python dict; its keys vary by `symbol_type`
(functions carry `is_async`, modules carry `exports`, variables carry
`value_repr`).  We model it as one structure with optional fields; a
field that the corresponding dict lacks is `none` (resp. `""`/`[]` for
the keys `code`, `UID` and the three dependency keys, which every
symbol receives before anything reads them). -/

structure Sym where
  file_path : String := ""
  symbol_type : String := ""
  name : String := ""
  qualified_name : String := ""
  parent_class : Option String := none
  start_lineno : Nat := 0
  end_lineno : Option Nat := none
  docstring : Option String := none
  imports : List String := []
  is_async : Option Bool := none
  exports : Option (List String) := none
  value_repr : Option String := none
  code : String := ""
  UID : String := ""
  depends_on : List String := []
  used_by : List String := []
  ext_dependencies : List String := []
  deriving DecidableEq, Repr, Inhabited

mutual
/-- `SymbolVisitor.visit` on one statement: `visit_FunctionDef` /
`visit_AsyncFunctionDef` (via `_handle_function`) and `visit_ClassDef`,
with the explicit enclosing-class stack (innermost first; only the
parent's `qualified_name` is consulted).  `generic_visit` recurses into
bodies, so nested definitions are emitted too. -/
def visitStmt (rank : String → Nat) (importMap : List (String × String))
    (filePath : String) (stack : List String) : PyStmt → List Sym
  | .functionDef nm l e body isAsync =>
      let parent := stack.head?
      let usedNames := usedNamesStmt (.functionDef nm l e body isAsync)
      let usedImports :=
        (setToList rank usedNames).filterMap (fun n => dictLookup n importMap)
      let sym : Sym :=
        { file_path := filePath
          symbol_type := if parent.isSome then "method" else "function"
          name := nm
          qualified_name :=
            match parent with | some p => p ++ "." ++ nm | none => nm
          parent_class := parent
          start_lineno := l
          end_lineno := e
          docstring := getDocstring body
          imports := setToList rank usedImports
          is_async := some isAsync }
      sym :: visitStmts rank importMap filePath stack body
  | .classDef nm l e body =>
      let parent := stack.head?
      let qname := match parent with | some p => p ++ "." ++ nm | none => nm
      let usedNames := usedNamesStmt (.classDef nm l e body)
      let usedImports :=
        (setToList rank usedNames).filterMap (fun n => dictLookup n importMap)
      let sym : Sym :=
        { file_path := filePath
          symbol_type := "class"
          name := nm
          qualified_name := qname
          parent_class := parent
          start_lineno := l
          end_lineno := e
          docstring := getDocstring body
          imports := setToList rank usedImports }
      sym :: visitStmts rank importMap filePath (qname :: stack) body
  | _ => []

def visitStmts (rank : String → Nat) (importMap : List (String × String))
    (filePath : String) (stack : List String) : List PyStmt → List Sym
  | [] => []
  | s :: rest =>
      visitStmt rank importMap filePath stack s ++
        visitStmts rank importMap filePath stack rest
end

/-- The module qualified name `extract_module_exports` computes for
itself: `'.'.join(file_path.split('.')[0].split('\\')[1:])`.  (The
value it stores is overwritten by the fix-up loop of `parse_file`.) -/
def exportsModuleQname (filePath : String) : String :=
  pyJoin "." ((pySplit '\\' ((pySplit '.' filePath).headD "")).drop 1)

/-- The symbol dict `extract_module_exports` emits for one module-level
assignment target. -/
def mkVarSym (rank : String → Nat) (importMap : List (String × String))
    (filePath : String) (moduleQname : String) (node : PyStmt)
    (targetId : String) (lineno : Nat) (endLineno : Option Nat)
    (valueRepr : Option String) : Sym :=
  { file_path := filePath
    symbol_type := "variable"
    name := targetId
    parent_class := none
    docstring := none
    qualified_name := moduleQname ++ "." ++ targetId
    start_lineno := lineno
    end_lineno := some (endLineno.getD lineno)
    value_repr := valueRepr
    imports :=
      (setToList rank (usedNamesStmt node)).filterMap
        (fun n => dictLookup n importMap) }

/-- `extract_module_exports`: module-level `Assign`/`AnnAssign`
statements produce the export-name set and one variable symbol per
`Name` target. -/
def extractModuleExports (rank : String → Nat) (filePath : String)
    (body : List PyStmt) : List String × List Sym :=
  let moduleQname := exportsModuleQname filePath
  let importMap := buildImportMap body
  let step := fun (acc : List String × List Sym) (s : PyStmt) =>
    match s with
    | .assign targets value l e =>
        targets.foldl
          (fun acc2 t =>
            match t with
            | .name id =>
                (addIfAbsent id acc2.1,
                 acc2.2 ++ [mkVarSym rank importMap filePath moduleQname
                    (.assign targets value l e) id l e (some (pyUnparse value))])
            | _ => acc2) acc
    | .annAssign (.name id) value l e =>
        (addIfAbsent id acc.1,
         acc.2 ++ [mkVarSym rank importMap filePath moduleQname
            (.annAssign (.name id) value l e) id l e (value.map pyUnparse)])
    | _ => acc
  let res := body.foldl step ([], [])
  (setToList rank res.1, res.2)

/-! ## File discovery (`traverse_codebase`, `is_test_file`,
`get_included_files`) and `parse_file`

The filesystem is a directory tree; a file carries its `stat` size, its
text (as the line list `splitlines()` produces) and the outcome of
`ast.parse` on that text (`ast.parse` itself is the language grammar,
outside the embedded program; the program only branches on whether it
raised).  A `Path` is its list of components; `str(path)` joins them
with the backslash separator the repository's own string handling
assumes. -/

structure FSFile where
  fsName : String
  size : Nat
  lines : List String
  tree : Except String (List PyStmt)

/-- A directory: files plus named subdirectories. -/
inductive FSDir where
  | mk (files : List FSFile) (subdirs : List (String × FSDir))

def FSDir.files : FSDir → List FSFile
  | .mk fs _ => fs

def FSDir.subdirs : FSDir → List (String × FSDir)
  | .mk _ ds => ds

mutual
/-- `os.walk` (top-down): every directory with its path components and
its files, parents first. -/
def walkDir (path : List String) : FSDir → List (List String × List FSFile)
  | .mk files subs => (path, files) :: walkSubdirs path subs

def walkSubdirs (path : List String) :
    List (String × FSDir) → List (List String × List FSFile)
  | [] => []
  | (nm, d) :: rest => walkDir (path ++ [nm]) d ++ walkSubdirs path rest
end

/-- `str(Path(...))` under the repository's backslash convention. -/
def renderPath (segs : List String) : String := pyJoin "\x5c" segs

/-- A discovered file: its path components (repository root first) and
the file itself.  `path` renders to the dict's `"path"` entry; the
`"absolute_path"` entry resolves to the same components in this model. -/
structure FileInfo where
  pathSegs : List String
  file : FSFile

/-- `traverse_codebase`: all `.py` files under the root, in walk order. -/
def traverseCodebase (repoName : String) (root : FSDir) : List FileInfo :=
  ((walkDir [repoName] root).map
    (fun rf =>
      (rf.2.filter (fun f => pyEndsWith f.fsName ".py")).map
        (fun f => FileInfo.mk (rf.1 ++ [f.fsName]) f))).flatten

/-- `is_test_file`. -/
def isTestFile (fi : FileInfo) : Bool :=
  let pathStr := pyLower (renderPath fi.pathSegs)
  decide (strContains pathStr "\x5ctests\x5c") ||
  decide (strContains pathStr "\x5ctest\x5c") ||
  pyStartsWith fi.file.fsName "test_" ||
  pyEndsWith fi.file.fsName "_test.py" ||
  pyStartsWith fi.file.fsName "tests_" ||
  pyEndsWith fi.file.fsName "_tests.py"

/-- `get_included_files`: drop zero-byte files and test files. -/
def getIncludedFiles (repoName : String) (root : FSDir) : List FileInfo :=
  (traverseCodebase repoName root).filter
    (fun fi => !(fi.file.size == 0 || isTestFile fi))

/-- `PurePath.stem` / `with_suffix("")` on one path component: strip
the last dot-suffix unless the only dot leads a dot-file. -/
def stemOfChars (cs : List Char) : List Char :=
  match splitChar '.' cs with
  | [] => cs
  | g :: gs =>
      if gs = [] then cs
      else if g = [] ∧ gs.length = 1 then cs
      else joinChar '.' (g :: gs.dropLast)

def stemOf (s : String) : String := ⟨stemOfChars s.data⟩

/-- The module qualified name `parse_file` computes:
`rel_path.with_suffix("").parts` joined with dots, falling back to the
file stem when the path is not under the repository root. -/
def moduleQnameOf (repoRoot : List String) (fi : FileInfo) : String :=
  if repoRoot.isPrefixOf fi.pathSegs then
    let rel := fi.pathSegs.drop repoRoot.length
    pyJoin "." (rel.dropLast ++ (rel.getLast?.map stemOf).toList)
  else stemOf fi.file.fsName

/-- The code-and-identifier fix-up loop at the end of `parse_file`:
slice the `code` span and install the module-prefixed
`qualified_name`/`UID` (and `parent_class`) per symbol type. -/
def finalizeSym (lines : List String) (moduleQname : String) (s : Sym) : Sym :=
  let start := s.start_lineno - 1
  let stop := match s.end_lineno with
    | some e => if e = 0 then start + 1 else e
    | none => start + 1
  let code := pyJoin "\n" ((lines.take stop).drop start)
  if s.symbol_type = "module" then
    { s with code := code, UID := moduleQname }
  else if s.symbol_type = "variable" then
    let q := moduleQname ++ "." ++ s.name
    { s with code := code, qualified_name := q, UID := q }
  else
    let fq := moduleQname ++ "." ++ s.qualified_name
    { s with code := code, qualified_name := fq, UID := fq,
             parent_class := s.parent_class.map
               (fun p => moduleQname ++ "." ++ p) }

/-- `parse_file` after a successful `ast.parse`: visitor symbols, then
variable symbols, then the synthesized module symbol, all fixed up. -/
def parseFileCore (rank : String → Nat) (repoRoot : List String)
    (fi : FileInfo) (body : List PyStmt) : List Sym :=
  let filePath := renderPath fi.pathSegs
  let importMap := buildImportMap body
  let moduleQname := moduleQnameOf repoRoot fi
  let visitorSyms := visitStmts rank importMap filePath [] body
  let ev := extractModuleExports rank filePath body
  let lineCount := fi.file.lines.length
  let moduleSym : Sym :=
    { file_path := filePath
      symbol_type := "module"
      name := stemOf fi.file.fsName
      start_lineno := 1
      end_lineno := some lineCount
      qualified_name := moduleQname
      parent_class := none
      docstring := getDocstring body
      exports := some ev.1
      imports := dictValues importMap }
  ((visitorSyms ++ ev.2) ++ [moduleSym]).map
    (finalizeSym fi.file.lines moduleQname)

/-- `parse_file`, propagating an `ast.parse` failure as the exception
the orchestrator catches. -/
def parseFileE (rank : String → Nat) (repoRoot : List String)
    (fi : FileInfo) : Except String (List Sym) :=
  match fi.file.tree with
  | .error e => .error e
  | .ok body => .ok (parseFileCore rank repoRoot fi body)

/-! ## `add_dependencies` — the repository-wide linking pass

The Python pass mutates symbol dicts shared through a `uid -> symbol`
index.  Dict identity is positional here: the index maps a uid to the
position of the *last* symbol carrying it, and updates go through
`List.set`. -/

/-- The `uid -> symbol` index `{s['UID']: s for s in symbols}`, with
symbols identified by their list position (last write wins): the loop
over `symbols` with a running position counter. -/
def buildIndexFrom (i : Nat) : List Sym → List (String × Nat) → List (String × Nat)
  | [], d => d
  | s :: rest, d => buildIndexFrom (i + 1) rest (dictInsert s.UID i d)

def buildIndex (syms : List Sym) : List (String × Nat) :=
  buildIndexFrom 0 syms []

/-- Reset `depends_on` / `used_by` / `ext_dependencies` to empty. -/
def resetLinks (s : Sym) : Sym :=
  { s with depends_on := [], used_by := [], ext_dependencies := [] }

/-- Apply `f` to the symbol at position `k`. -/
def updateAt (k : Nat) (f : Sym → Sym) (st : List Sym) : List Sym :=
  match st[k]? with
  | some s => st.set k (f s)
  | none => st

/-- The loop body of `add_dependencies` for one symbol: each
resolved import extends the symbol's own `depends_on` and the target's
`used_by`; an unresolved one extends the symbol's `ext_dependencies`.
The symbol is position `k`; `uidK`/`imps` are its `UID` and `imports`
(read from the live dict, which the loop never writes to). -/
def linkFold (index : List (String × Nat)) (k : Nat) (uidK : String)
    (imps : List String) (st : List Sym) : List Sym :=
  imps.foldl
    (fun st' imp =>
      match dictLookup imp index with
      | some j =>
          updateAt j (fun s => { s with used_by := addIfAbsent uidK s.used_by })
            (updateAt k
              (fun s => { s with depends_on := addIfAbsent imp s.depends_on }) st')
      | none =>
          updateAt k
            (fun s =>
              { s with ext_dependencies := addIfAbsent imp s.ext_dependencies })
            st') st

/-- Process one symbol's `imports` list. -/
def linkImports (index : List (String × Nat)) (k : Nat)
    (st : List Sym) : List Sym :=
  match st[k]? with
  | none => st
  | some symK => linkFold index k symK.UID symK.imports st

/-- Sort the three edge lists (`sorted` on sets of strings). -/
def sortLinks (s : Sym) : Sym :=
  { s with depends_on := pySorted s.depends_on
           used_by := pySorted s.used_by
           ext_dependencies := pySorted s.ext_dependencies }

/-- `add_dependencies`. -/
def addDependencies (syms : List Sym) : List Sym :=
  let index := buildIndex syms
  let st0 := syms.map resetLinks
  let linked := (List.range st0.length).foldl
    (fun st k => linkImports index k st) st0
  linked.map sortLinks

/-! ## `parse_repository` -/

structure RepoInfo where
  rname : String
  language : String
  absolute_path : String
  deriving DecidableEq, Repr

structure Snapshot where
  repo : RepoInfo
  symbols : List Sym
  deriving DecidableEq, Repr

/-- `parse_repository`: discovery, per-file parsing with per-file error
recovery (the `except` branch prints and continues; the prints are
returned as a log), then one linking pass.  The `repo_root` used for
qualified names resolves to the repository's own path components. -/
def parseRepository (rank : String → Nat) (repoName : String)
    (root : FSDir) : Snapshot × List String :=
  let files := getIncludedFiles repoName root
  let repoRoot := [repoName]
  let acc := files.foldl
    (fun (acc : List Sym × List String) fi =>
      match parseFileE rank repoRoot fi with
      | .ok syms => (acc.1 ++ syms, acc.2)
      | .error e =>
          (acc.1,
           acc.2 ++ ["Error parsing " ++ renderPath fi.pathSegs ++ ": " ++ e]))
    ([], [])
  ({ repo := { rname := repoName, language := "python",
               absolute_path := repoName }
     symbols := addDependencies acc.1 }, acc.2)

/-! ## `src/core/retrieval.py` — retrieval units

`build_retrieval_units` projects each parsed symbol dict into the
frozen `RetrievalUnit` dataclass; `asdict` of these units is the
metadata list every downstream consumer (including
`arch.build_module_graph`) receives, so the dataclass's lower-case
`uid` key is what the graph builder later looks up. -/

structure RetrievalUnit where
  uid : String
  symbol_type : String
  runame : String
  qualified_name : String
  file_path : String
  signature : Option String
  code : Option String
  docstring : Option String
  ruModule : String
  depends_on : List String
  used_by : List String
  external_dependencies : List String
  deriving DecidableEq, Repr

/-- Python `s.strip()` (ASCII whitespace). -/
def pyStrip (s : String) : String :=
  let ws : List Char := [' ', '\t', '\n', '\r']
  ⟨((s.data.dropWhile (· ∈ ws)).reverse.dropWhile (· ∈ ws)).reverse⟩

/-- `_extract_signature`: first line of the stripped code for
functions and methods, `class <name>` for classes, `None` otherwise.
(Whitespace-only code yields the empty first line in this model; the
source would raise an `IndexError` there, which no parsed symbol can
trigger since a definition's first line carries its keyword.) -/
def extractSignature (s : Sym) : Option String :=
  if s.symbol_type = "function" ∨ s.symbol_type = "method" then
    if s.code = "" then none
    else some (((pySplit '\n' (pyStrip s.code)).headD ""))
  else if s.symbol_type = "class" then some ("class " ++ s.name)
  else none

/-- `build_retrieval_units`. -/
def buildRetrievalUnits (syms : List Sym) : List RetrievalUnit :=
  syms.map (fun s =>
    { uid := s.UID
      symbol_type := s.symbol_type
      runame := s.name
      qualified_name := s.qualified_name
      file_path := s.file_path
      signature := extractSignature s
      code := some s.code
      docstring := s.docstring
      ruModule := (pySplit '\x5c' s.file_path).getLastD ""
      depends_on := s.depends_on
      used_by := s.used_by
      external_dependencies := s.ext_dependencies })

/-! ## `src/arch.py` — the module dependency graph -/

/-- An `nx.DiGraph` over file-path strings: node and edge insertion
are deduplicating, and `add_edge` registers missing endpoints. -/
structure DiGraph where
  nodes : List String
  edges : List (String × String)
  deriving DecidableEq, Repr

def DiGraph.addNode (g : DiGraph) (n : String) : DiGraph :=
  { g with nodes := addIfAbsent n g.nodes }

def DiGraph.addEdge (g : DiGraph) (u v : String) : DiGraph :=
  { nodes := addIfAbsent v (addIfAbsent u g.nodes)
    edges := addIfAbsent (u, v) g.edges }

/-- `build_module_graph` over the retrieval-unit metadata: first pass
registers every unit's `uid -> file_path` (the dataclass dict always
carries both keys) and collects module files; second pass adds, for
every module-type unit, an edge to the home file of each `depends_on`
target that resolves to a *different* file.  Unresolvable uids are
silently dropped. -/
def buildModuleGraph (metadata : List RetrievalUnit) : DiGraph :=
  let uidToModuleFile := metadata.foldl
    (fun d u => dictInsert u.uid u.file_path d) []
  let moduleFiles := metadata.foldl
    (fun acc u =>
      if u.symbol_type = "module" ∧ u.file_path ≠ "" then
        addIfAbsent u.file_path acc
      else acc) []
  let g0 := moduleFiles.foldl DiGraph.addNode { nodes := [], edges := [] }
  metadata.foldl
    (fun g u =>
      if u.symbol_type = "module" ∧ u.file_path ≠ "" then
        u.depends_on.foldl
          (fun g' dep =>
            match dictLookup dep uidToModuleFile with
            | some dst => if dst ≠ u.file_path then g'.addEdge u.file_path dst else g'
            | none => g') g
      else g) g0

/-! ## Snapshot serialization

`parse_repository` persists the snapshot with `json.dump(result, f,
indent=2)`.  The renderer below emits each symbol dict's keys in their
insertion order (which depends on the symbol type) and renders lists in
list order, as `json.dump` does; `json.dump`'s whitespace is a fixed
function of the same structure, so two snapshots serialize to identical
bytes exactly when the renderings below coincide. -/

def jsonEscape (s : String) : String :=
  ⟨(s.data.map (fun c =>
      if c = '\x5c' then ['\x5c', '\x5c']
      else if c = '"' then ['\x5c', '"']
      else if c = '\n' then ['\x5c', 'n']
      else [c])).flatten⟩

def jsonStr (s : String) : String := "\"" ++ jsonEscape s ++ "\""

def jsonOpt (o : Option String) : String :=
  match o with
  | none => "null"
  | some s => jsonStr s

def jsonStrList (l : List String) : String :=
  "[" ++ pyJoin ", " (l.map jsonStr) ++ "]"

/-- One serialized symbol dict, keys in insertion order per type. -/
def serializeSym (s : Sym) : String :=
  let common :=
    [("code", jsonStr s.code), ("UID", jsonStr s.UID),
     ("depends_on", jsonStrList s.depends_on),
     ("used_by", jsonStrList s.used_by),
     ("ext_dependencies", jsonStrList s.ext_dependencies)]
  let fields :=
    if s.symbol_type = "module" then
      [("file_path", jsonStr s.file_path), ("symbol_type", jsonStr s.symbol_type),
       ("name", jsonStr s.name), ("start_lineno", toString s.start_lineno),
       ("end_lineno", toString (s.end_lineno.getD 0)),
       ("qualified_name", jsonStr s.qualified_name),
       ("parent_class", jsonOpt s.parent_class),
       ("docstring", jsonOpt s.docstring),
       ("exports", jsonStrList (s.exports.getD [])),
       ("imports", jsonStrList s.imports)] ++ common
    else if s.symbol_type = "variable" then
      [("file_path", jsonStr s.file_path), ("symbol_type", jsonStr s.symbol_type),
       ("name", jsonStr s.name), ("parent_class", jsonOpt s.parent_class),
       ("docstring", jsonOpt s.docstring),
       ("qualified_name", jsonStr s.qualified_name),
       ("start_lineno", toString s.start_lineno),
       ("end_lineno", toString (s.end_lineno.getD 0)),
       ("value_repr", jsonOpt s.value_repr),
       ("imports", jsonStrList s.imports)] ++ common
    else
      [("file_path", jsonStr s.file_path), ("symbol_type", jsonStr s.symbol_type),
       ("name", jsonStr s.name), ("qualified_name", jsonStr s.qualified_name),
       ("parent_class", jsonOpt s.parent_class),
       ("start_lineno", toString s.start_lineno),
       ("end_lineno", toString (s.end_lineno.getD 0)),
       ("docstring", jsonOpt s.docstring),
       ("imports", jsonStrList s.imports)] ++
      (match s.is_async with
       | some b => [("is_async", if b then "true" else "false")]
       | none => []) ++ common
  "\x7b" ++ pyJoin ", " (fields.map (fun kv => jsonStr kv.1 ++ ": " ++ kv.2)) ++ "\x7d"

/-- The serialized snapshot document. -/
def serializeSnapshot (snap : Snapshot) : String :=
  "\x7b" ++ jsonStr "repo" ++ ": \x7b" ++
    jsonStr "name" ++ ": " ++ jsonStr snap.repo.rname ++ ", " ++
    jsonStr "language" ++ ": " ++ jsonStr snap.repo.language ++ ", " ++
    jsonStr "absolute_path" ++ ": " ++ jsonStr snap.repo.absolute_path ++
  "\x7d, " ++ jsonStr "symbols" ++ ": [" ++
    pyJoin ", " (snap.symbols.map serializeSym) ++ "]\x7d"

/-! ## Proof-side accessors and claim-side predicates -/

/-- `depends_on` of the symbol at position `p` (empty out of range). -/
def depAt (st : List Sym) (p : Nat) : List String :=
  ((st[p]?).map Sym.depends_on).getD []

def usedAt (st : List Sym) (p : Nat) : List String :=
  ((st[p]?).map Sym.used_by).getD []

def extAt (st : List Sym) (p : Nat) : List String :=
  ((st[p]?).map Sym.ext_dependencies).getD []

def uidAt (st : List Sym) (p : Nat) : String :=
  ((st[p]?).map Sym.UID).getD ""

def impAt (st : List Sym) (p : Nat) : List String :=
  ((st[p]?).map Sym.imports).getD []

/-- Position of the last symbol carrying uid `x` (what the
last-write-wins index resolves `x` to). -/
def lastIdxOf (x : String) : List Sym → Option Nat
  | [] => none
  | s :: rest =>
      match lastIdxOf x rest with
      | some j => some (j + 1)
      | none => if s.UID = x then some 0 else none

/-- One iteration of the import loop (proof-side decomposition of
`linkFold`). -/
def linkStep (index : List (String × Nat)) (k : Nat) (uidK : String)
    (imp : String) (st : List Sym) : List Sym :=
  match dictLookup imp index with
  | some j =>
      updateAt j (fun s => { s with used_by := addIfAbsent uidK s.used_by })
        (updateAt k
          (fun s => { s with depends_on := addIfAbsent imp s.depends_on }) st)
  | none =>
      updateAt k
        (fun s => { s with ext_dependencies := addIfAbsent imp s.ext_dependencies })
        st

/-- The outer loop of `add_dependencies` run over positions `0..K`
(proof-side decomposition). -/
def linkLoop (index : List (String × Nat)) (st0 : List Sym) (K : Nat) : List Sym :=
  (List.range K).foldl (fun st k => linkImports index k st) st0

/-- The loop body of `parse_repository`'s per-file loop (proof-side
name for the fold function). -/
def parseStep (rank : String → Nat) (repoRoot : List String)
    (acc : List Sym × List String) (fi : FileInfo) : List Sym × List String :=
  match parseFileE rank repoRoot fi with
  | .ok syms => (acc.1 ++ syms, acc.2)
  | .error e =>
      (acc.1,
       acc.2 ++ ["Error parsing " ++ renderPath fi.pathSegs ++ ": " ++ e])

/-- Claim side (spec §4.1): a directory component naming a test
directory, case-insensitively. -/
def isTestDirName (s : String) : Prop :=
  pyLower s = "test" ∨ pyLower s = "tests"

instance (s : String) : Decidable (isTestDirName s) := by
  unfold isTestDirName; infer_instance

/-- Claim side (spec §4.1): the filename stem matches a test-naming
convention by prefix/suffix. -/
def stemMatchesTestConvention (stem : String) : Prop :=
  pyStartsWith stem "test_" = true ∨ pyEndsWith stem "_test" = true ∨
  pyStartsWith stem "tests_" = true ∨ pyEndsWith stem "_tests" = true

instance (s : String) : Decidable (stemMatchesTestConvention s) := by
  unfold stemMatchesTestConvention; infer_instance

/-! ## Concrete fixtures used by the claim theorems -/

/-- A fixed string-hash order (any single interpreter run has one). -/
def rank0 : String → Nat := fun _ => 0

/-- `a.py`: `from b import bar` / `def foo(): bar()`. -/
def fileA : FSFile :=
  { fsName := "a.py"
    size := 35
    lines := ["from b import bar", "def foo(): bar()"]
    tree := .ok
      [.importFrom (some "b") [⟨"bar", none⟩],
       .functionDef "foo" 2 (some 2)
         [.exprStmt (.call (.name "bar") []) 2 (some 2)] false] }

/-- `b.py`: `def bar(): pass`. -/
def fileB : FSFile :=
  { fsName := "b.py"
    size := 16
    lines := ["def bar(): pass"]
    tree := .ok [.functionDef "bar" 1 (some 1) [.passStmt] false] }

/-- The two-file repository of the spec's scenario (claim C1). -/
def fsC1 : FSDir := .mk [fileA, fileB] []

def snapC1 : Snapshot := (parseRepository rank0 "r" fsC1).1

def graphC1 : DiGraph := buildModuleGraph (buildRetrievalUnits snapC1.symbols)

/-- A symbol table with two symbols sharing uid `"x"` (the documented
module-level re-assignment situation) and one importer of `"x"`. -/
def symsDupUid : List Sym :=
  [{ UID := "x" }, { UID := "x" }, { UID := "a", imports := ["x"] }]

/-- A duplicate-free table: `a` imports `b`. -/
def symsNodup : List Sym :=
  [{ UID := "a", imports := ["b"] }, { UID := "b" }]

def symsNodupLinked : List Sym := addDependencies symsNodup

/-- `c.py`: `import os` / `import sys` / `def f(): os.getcwd(); sys.exit()`. -/
def fileC : FSFile :=
  { fsName := "c.py"
    size := 60
    lines := ["import os", "import sys", "def f(): os.getcwd(); sys.exit()"]
    tree := .ok
      [.importStmt [⟨"os", none⟩],
       .importStmt [⟨"sys", none⟩],
       .functionDef "f" 3 (some 3)
         [.exprStmt (.call (.attr (.name "os") "getcwd") []) 3 (some 3),
          .exprStmt (.call (.attr (.name "sys") "exit") []) 3 (some 3)] false] }

def fsC3 : FSDir := .mk [fileC] []

/-- A hash order putting `"os"` before `"sys"`. -/
def rankOsFirst : String → Nat := fun s => if s = "os" then 0 else 1

/-- A hash order putting `"sys"` before `"os"`. -/
def rankSysFirst : String → Nat := fun s => if s = "os" then 1 else 0

/-- A repository whose root directory is itself named `tests`,
holding one regular source file. -/
def fsTestsRoot : FSDir :=
  .mk [{ fsName := "util.py", size := 6, lines := ["x = 1"],
         tree := .ok [.passStmt] }] []

/-- A repository exercising every discovery rule: a regular file, a
conventionally named test file, an empty file, and a `tests` subtree. -/
def fsDiscovery : FSDir :=
  .mk [{ fsName := "main.py", size := 9, lines := ["y = 2"], tree := .ok [.passStmt] },
       { fsName := "test_x.py", size := 9, lines := ["z = 3"], tree := .ok [.passStmt] },
       { fsName := "empty.py", size := 0, lines := [], tree := .ok [] }]
      [("tests",
        .mk [{ fsName := "inner.py", size := 9, lines := ["w = 4"],
               tree := .ok [.passStmt] }] [])]

def fiMain : FileInfo :=
  { pathSegs := ["r", "main.py"]
    file := { fsName := "main.py", size := 9, lines := ["y = 2"],
              tree := .ok [.passStmt] } }

/-- The discovered descriptor of `a.py` in the two-file repository. -/
def fiA : FileInfo := { pathSegs := ["r", "a.py"], file := fileA }

/-- A repository with one well-formed and one syntactically broken file. -/
def fsMixed : FSDir :=
  .mk [{ fsName := "bad.py", size := 7, lines := ["def ("],
         tree := .error "invalid syntax" },
       fileB] []

/-- A ranked candidate list for the retriever fixtures. -/
def searchFix : Nat → List (EmbDoc × Nat) := fun _ =>
  [(⟨some "module"⟩, 0), (⟨some "function"⟩, 1), (⟨some "class"⟩, 2),
   (⟨none⟩, 3), (⟨some "module"⟩, 4)]

/-! ## Lemmas and claim theorems -/

theorem docEligible_nil (d : EmbDoc) : docEligible [] d = false := by
  unfold docEligible
  cases d.symbolType <;> simp

/-- Behaviour of the scope retriever for a scope with registered
eligibility, recall and cap values. -/
theorem getRelevantDocuments_spec {σ : Type} (search : Nat → List (EmbDoc × σ))
    (scope : String) (elig : List String) (recallK finalK : Nat)
    (h1 : dictLookup scope SCOPE_ELIGIBILITY = some elig)
    (h2 : dictLookup scope RECALL_K_BY_SCOPE = some recallK)
    (h3 : dictLookup scope FINAL_K_BY_SCOPE = some finalK) :
    (getRelevantDocuments search scope).length ≤ finalK ∧
    (∀ d ∈ getRelevantDocuments search scope,
        ∃ t, d.symbolType = some t ∧ t ∈ elig) ∧
    (getRelevantDocuments search scope).Sublist
      ((search recallK).map Prod.fst) ∧
    ((search recallK).filter (fun p => docEligible elig p.1) = [] →
        getRelevantDocuments search scope = []) := by
  unfold getRelevantDocuments
  rw [h1, h2, h3]
  simp only [Option.getD_some]
  set eligible := (search recallK).filter (fun p => docEligible elig p.1) with he
  by_cases hne : eligible.isEmpty
  · simp [hne]
  · simp only [hne, if_false]
    refine ⟨?_, ?_, ?_, ?_⟩
    · calc ((eligible.take finalK).map Prod.fst).length
          = (eligible.take finalK).length := by rw [List.length_map]
        _ ≤ finalK := List.length_take_le _ _
    · intro d hd
      rcases List.mem_map.mp hd with ⟨p, hp, hpd⟩
      have hp' : p ∈ eligible := List.mem_of_mem_take hp
      have := (List.mem_filter.mp (he ▸ hp')).2
      unfold docEligible at this
      rcases hdt : p.1.symbolType with _ | t
      · rw [hdt] at this; simp at this
      · rw [hdt] at this
        exact ⟨t, by rw [← hpd, hdt], by simpa using this⟩
    · have s1 : (eligible.take finalK).Sublist eligible := List.take_sublist _ _
      have s2 : eligible.Sublist (search recallK) := he ▸ List.filter_sublist _
      exact (s1.trans s2).map Prod.fst
    · intro hnil
      simp [hnil]

/-- C7: for each scope in `{symbol, module, system}` and every ranked
candidate list, the filter returns at most `FINAL_K[scope]` items
(15/10/10); every returned item's `symbol_type` lies in
`SCOPE_ELIGIBILITY[scope]`; surviving candidates keep their input
order (the result is a sublist of the candidates); and when no
candidate survives filtering the result is `[]`, not an error. -/
theorem claim_C7_scope_filter {σ : Type} (search : Nat → List (EmbDoc × σ)) :
    ((getRelevantDocuments search "symbol").length ≤ 15 ∧
     (∀ d ∈ getRelevantDocuments search "symbol",
         ∃ t, d.symbolType = some t ∧ t ∈ ["function", "class", "variable"]) ∧
     (getRelevantDocuments search "symbol").Sublist
       ((search 10).map Prod.fst) ∧
     ((search 10).filter
         (fun p => docEligible ["function", "class", "variable"] p.1) = [] →
       getRelevantDocuments search "symbol" = [])) ∧
    ((getRelevantDocuments search "module").length ≤ 10 ∧
     (∀ d ∈ getRelevantDocuments search "module",
         ∃ t, d.symbolType = some t ∧ t ∈ ["module"]) ∧
     (getRelevantDocuments search "module").Sublist
       ((search 30).map Prod.fst) ∧
     ((search 30).filter (fun p => docEligible ["module"] p.1) = [] →
       getRelevantDocuments search "module" = [])) ∧
    ((getRelevantDocuments search "system").length ≤ 10 ∧
     (∀ d ∈ getRelevantDocuments search "system",
         ∃ t, d.symbolType = some t ∧ t ∈ ["module"]) ∧
     (getRelevantDocuments search "system").Sublist
       ((search 50).map Prod.fst) ∧
     ((search 50).filter (fun p => docEligible ["module"] p.1) = [] →
       getRelevantDocuments search "system" = [])) :=
  ⟨getRelevantDocuments_spec search "symbol" _ 10 15 rfl rfl rfl,
   getRelevantDocuments_spec search "module" _ 30 10 rfl rfl rfl,
   getRelevantDocuments_spec search "system" _ 50 10 rfl rfl rfl⟩

/-- Witness for C7 at a concrete candidate list. -/
theorem claim_C7_scope_filter_witness :
    (getRelevantDocuments searchFix "module").length ≤ 10 ∧
    getRelevantDocuments searchFix "module" =
      [⟨some "module"⟩, ⟨some "module"⟩] :=
  ⟨(claim_C7_scope_filter searchFix).2.1.1, by decide⟩

/-- C9: a scope outside `{symbol, module, system}` finds no entry in
`SCOPE_ELIGIBILITY`, the eligibility set defaults to empty, and the
retriever returns the empty list for every query and candidate set. -/
theorem claim_C9_unknown_scope {σ : Type} (search : Nat → List (EmbDoc × σ))
    (scope : String) (h : scope ∉ ["symbol", "module", "system"]) :
    dictLookup scope SCOPE_ELIGIBILITY = none ∧
    getRelevantDocuments search scope = [] := by
  have h1 : ¬ ("symbol" = scope) := fun hc => h (by simp [← hc])
  have h2 : ¬ ("module" = scope) := fun hc => h (by simp [← hc])
  have h3 : ¬ ("system" = scope) := fun hc => h (by simp [← hc])
  have hlook : dictLookup scope SCOPE_ELIGIBILITY = none := by
    simp [SCOPE_ELIGIBILITY, dictLookup, h1, h2, h3]
  refine ⟨hlook, ?_⟩
  unfold getRelevantDocuments
  rw [hlook]
  simp [docEligible_nil]

/-- Witness for C9 at a concrete scope and candidate list. -/
theorem claim_C9_unknown_scope_witness :
    dictLookup "overview" SCOPE_ELIGIBILITY = none ∧
    getRelevantDocuments searchFix "overview" = [] :=
  claim_C9_unknown_scope searchFix "overview" (by decide)

/-- C1: in the two-file repository (`a.py` importing and calling `bar`
from `b.py`), after `parse_repository`'s parse-and-link pass, `foo`'s
`depends_on` contains `b.bar`'s uid and `bar`'s `used_by` contains
`a.foo`'s uid; and `build_module_graph` over the snapshot (through the
retrieval-unit projection the pipeline feeds it) contains the directed
edge `a.py -> b.py`. -/
theorem claim_C1_two_file_scenario :
    (∃ f ∈ snapC1.symbols, f.UID = "a.foo" ∧ "b.bar" ∈ f.depends_on) ∧
    (∃ g ∈ snapC1.symbols, g.UID = "b.bar" ∧ "a.foo" ∈ g.used_by) ∧
    ("r\x5ca.py", "r\x5cb.py") ∈ graphC1.edges := by decide

/-- C2 fails as stated: with two symbols sharing uid `"x"` (legal —
module-level re-assignment produces duplicate uids) and a third
symbol importing `"x"`: the importer's `depends_on` contains `"x"`,
which is the uid of the *first* `"x"`-symbol, yet only the last
`"x"`-symbol's `used_by` receives the back-edge. -/
theorem claim_C2_counterexample :
    ¬ (∀ A ∈ addDependencies symsDupUid, ∀ B ∈ addDependencies symsDupUid,
        (B.UID ∈ A.depends_on ↔ A.UID ∈ B.used_by)) := by decide

/-- C3 (bit-reproducibility) fails on the code: the per-symbol
`imports` list is `list(set(...))`, whose enumeration order follows
the interpreter's string-hash order, so two runs of the parse under
different hash seeds serialize the same repository to different
bytes.  With `os` hashed before `sys` the function symbol's imports
serialize as `["os", "sys"]`; with the opposite order, `["sys", "os"]`. -/
theorem claim_C3_hash_order_dependence :
    serializeSnapshot (parseRepository rankOsFirst "r" fsC3).1 ≠
      serializeSnapshot (parseRepository rankSysFirst "r" fsC3).1 ∧
    (∃ f ∈ (parseRepository rankOsFirst "r" fsC3).1.symbols,
        f.UID = "c.f" ∧ f.imports = ["os", "sys"]) ∧
    (∃ f ∈ (parseRepository rankSysFirst "r" fsC3).1.symbols,
        f.UID = "c.f" ∧ f.imports = ["sys", "os"]) := by decide

/-- C5 fails as stated: when the repository root directory is itself
named `tests`, its files' paths contain a test-directory segment, yet
discovery includes them — `is_test_file` only recognizes a segment
preceded by a path separator. -/
theorem claim_C5_counterexample :
    ∃ fi ∈ getIncludedFiles "tests" fsTestsRoot,
      ∃ d ∈ fi.pathSegs.dropLast, isTestDirName d := by decide

/-! ### Dictionary, set and sorting lemmas -/

theorem mem_addIfAbsent {α : Type} [DecidableEq α] (x y : α) (l : List α) :
    y ∈ addIfAbsent x l ↔ y = x ∨ y ∈ l := by
  unfold addIfAbsent
  by_cases h : x ∈ l
  · simp only [if_pos h]
    constructor
    · exact Or.inr
    · rintro (rfl | hy)
      · exact h
      · exact hy
  · simp [if_neg h, List.mem_append, or_comm]

theorem mem_insertBy {α : Type} (le : α → α → Bool) (x y : α) (l : List α) :
    y ∈ insertBy le x l ↔ y = x ∨ y ∈ l := by
  induction l with
  | nil => simp [insertBy]
  | cons z zs ih =>
      unfold insertBy
      by_cases h : le x z
      · simp [h]
      · simp only [if_neg h, List.mem_cons, ih]
        tauto

theorem mem_sortBy {α : Type} (le : α → α → Bool) (y : α) (l : List α) :
    y ∈ sortBy le l ↔ y ∈ l := by
  induction l with
  | nil => simp [sortBy]
  | cons z zs ih => simp [sortBy, mem_insertBy, ih]

theorem mem_pySorted (y : String) (l : List String) :
    y ∈ pySorted l ↔ y ∈ l := mem_sortBy _ _ _

theorem mem_of_getElem?' {α : Type} {l : List α} {i : Nat} {a : α}
    (h : l[i]? = some a) : a ∈ l := by
  induction l generalizing i with
  | nil => simp at h
  | cons x xs ih =>
      cases i with
      | zero =>
          have : x = a := by simpa using h
          simp [this]
      | succ n => exact List.mem_cons_of_mem _ (ih (by simpa using h))

theorem dictLookup_dictInsert {α β : Type} [DecidableEq α]
    (k x : α) (v : β) (d : List (α × β)) :
    dictLookup x (dictInsert k v d) =
      if k = x then some v else dictLookup x d := by
  induction d with
  | nil => simp [dictInsert, dictLookup]
  | cons kv rest ih =>
      obtain ⟨k', v'⟩ := kv
      show dictLookup x
        (if k' = k then (k, v) :: rest else (k', v') :: dictInsert k v rest) = _
      by_cases hk : k' = k
      · subst hk
        rw [if_pos rfl]
        by_cases hx : k' = x
        · subst hx; simp [dictLookup]
        · show (if k' = x then some v else dictLookup x rest) = _
          rw [if_neg hx]
          show _ = (if k' = x then some v else
            (if k' = x then some v' else dictLookup x rest))
          rw [if_neg hx, if_neg hx]
      · rw [if_neg hk]
        show (if k' = x then some v' else dictLookup x (dictInsert k v rest)) = _
        by_cases hx : k' = x
        · subst hx
          have hkx : ¬ (k = k') := fun hc => hk hc.symm
          rw [if_pos rfl, if_neg hkx]
          show some v' = (if k' = k' then some v' else dictLookup k' rest)
          rw [if_pos rfl]
        · rw [if_neg hx, ih]
          show _ = (if k = x then some v else
            (if k' = x then some v' else dictLookup x rest))
          rw [if_neg hx]

/-! ### The last-write-wins uid index -/

theorem buildIndexFrom_lookup (l : List Sym) :
    ∀ (i : Nat) (d : List (String × Nat)) (x : String),
      dictLookup x (buildIndexFrom i l d) =
        match lastIdxOf x l with
        | some j => some (i + j)
        | none => dictLookup x d := by
  induction l with
  | nil => intro i d x; simp [buildIndexFrom, lastIdxOf]
  | cons s rest ih =>
      intro i d x
      show dictLookup x (buildIndexFrom (i + 1) rest (dictInsert s.UID i d)) = _
      rw [ih]
      cases hr : lastIdxOf x rest with
      | some j =>
          have hadd : i + 1 + j = i + (j + 1) := by omega
          simp [lastIdxOf, hr, hadd]
      | none =>
          simp only [lastIdxOf, hr, dictLookup_dictInsert]
          by_cases hx : s.UID = x <;> simp [hx]

theorem buildIndex_lookup (syms : List Sym) (x : String) :
    dictLookup x (buildIndex syms) =
      match lastIdxOf x syms with
      | some j => some j
      | none => none := by
  unfold buildIndex
  rw [buildIndexFrom_lookup]
  cases lastIdxOf x syms <;> simp [dictLookup]

theorem lastIdxOf_mem {x : String} {l : List Sym} {j : Nat}
    (h : lastIdxOf x l = some j) : ∃ s, l[j]? = some s ∧ s.UID = x := by
  induction l generalizing j with
  | nil => simp [lastIdxOf] at h
  | cons s rest ih =>
      unfold lastIdxOf at h
      cases hr : lastIdxOf x rest with
      | some j' =>
          rw [hr] at h
          obtain rfl : j' + 1 = j := by simpa using h
          obtain ⟨t, ht, hx⟩ := ih hr
          exact ⟨t, by simpa using ht, hx⟩
      | none =>
          rw [hr] at h
          by_cases hx : s.UID = x
          · simp only [hx, if_pos rfl] at h
            obtain rfl : 0 = j := by simpa using h
            exact ⟨s, by simp, hx⟩
          · simp [hx] at h

theorem lastIdxOf_isSome_iff (x : String) (l : List Sym) :
    (lastIdxOf x l).isSome = true ↔ ∃ s ∈ l, s.UID = x := by
  induction l with
  | nil => simp [lastIdxOf]
  | cons s rest ih =>
      unfold lastIdxOf
      cases hr : lastIdxOf x rest with
      | some j =>
          obtain ⟨t, ht, hx⟩ := ih.mp (by simp [hr])
          simp only [Option.isSome_some, true_iff]
          exact ⟨t, List.mem_cons_of_mem _ ht, hx⟩
      | none =>
          have hrest : ¬ ∃ t ∈ rest, t.UID = x := by
            intro hc
            have := ih.mpr hc
            rw [hr] at this
            simp at this
          by_cases hx : s.UID = x
          · rw [if_pos hx]
            simp only [Option.isSome_some, true_iff]
            exact ⟨s, List.mem_cons_self _ _, hx⟩
          · rw [if_neg hx]
            constructor
            · intro hc; exact absurd hc (by simp)
            · rintro ⟨t, ht, hxt⟩
              rcases List.mem_cons.mp ht with rfl | htr
              · exact absurd hxt hx
              · exact absurd ⟨t, htr, hxt⟩ hrest

theorem lastIdxOf_of_nodup {l : List Sym}
    (h : (l.map Sym.UID).Nodup) :
    ∀ (j : Nat) (s : Sym), l[j]? = some s → lastIdxOf s.UID l = some j := by
  induction l with
  | nil => intro j s hj; simp at hj
  | cons t rest ih =>
      intro j s hj
      have hnd := h
      rw [List.map_cons, List.nodup_cons] at hnd
      obtain ⟨hnotin, hrest⟩ := hnd
      cases j with
      | zero =>
          have hts : t = s := by simpa using hj
          subst hts
          unfold lastIdxOf
          cases hr : lastIdxOf t.UID rest with
          | some j' =>
              obtain ⟨u, hu, hux⟩ := lastIdxOf_mem hr
              have : t.UID ∈ rest.map Sym.UID :=
                List.mem_map.mpr ⟨u, mem_of_getElem?' hu, hux⟩
              exact absurd this hnotin
          | none => simp
      | succ j' =>
          have hj' : rest[j']? = some s := by simpa using hj
          unfold lastIdxOf
          rw [ih hrest j' s hj']

/-! ### The state updates of the linking loop -/

theorem linkFold_nil (index : List (String × Nat)) (k : Nat) (uidK : String)
    (st : List Sym) : linkFold index k uidK [] st = st := rfl

theorem linkFold_cons (index : List (String × Nat)) (k : Nat) (uidK : String)
    (imp : String) (rest : List String) (st : List Sym) :
    linkFold index k uidK (imp :: rest) st =
      linkFold index k uidK rest (linkStep index k uidK imp st) := by
  unfold linkFold linkStep
  rw [List.foldl_cons]

theorem length_updateAt (k : Nat) (f : Sym → Sym) (st : List Sym) :
    (updateAt k f st).length = st.length := by
  unfold updateAt
  cases h : st[k]? <;> simp

theorem getElem?_updateAt (k : Nat) (f : Sym → Sym) (st : List Sym) (p : Nat) :
    (updateAt k f st)[p]? = if p = k then (st[k]?).map f else st[p]? := by
  unfold updateAt
  cases h : st[k]? with
  | none => by_cases hp : p = k <;> simp [hp, h]
  | some sk =>
      have hk : k < st.length := by
        by_contra hge
        rw [List.getElem?_eq_none (Nat.le_of_not_lt hge)] at h
        exact Option.noConfusion h
      by_cases hp : p = k
      · subst hp
        simp [List.getElem?_set, hk, h]
      · have : ¬ (k = p) := fun hc => hp hc.symm
        simp [List.getElem?_set, this, hp]

theorem length_linkStep (index : List (String × Nat)) (k : Nat) (uidK : String)
    (imp : String) (st : List Sym) :
    (linkStep index k uidK imp st).length = st.length := by
  unfold linkStep
  cases dictLookup imp index <;> simp [length_updateAt]

theorem length_linkFold (index : List (String × Nat)) (k : Nat) (uidK : String)
    (imps : List String) : ∀ st : List Sym,
    (linkFold index k uidK imps st).length = st.length := by
  induction imps with
  | nil => intro st; rfl
  | cons imp rest ih =>
      intro st
      rw [linkFold_cons, ih, length_linkStep]

theorem map_resetLinks_updateAt (k : Nat) (f : Sym → Sym) (st : List Sym)
    (hf : ∀ s, resetLinks (f s) = resetLinks s) (p : Nat) :
    ((updateAt k f st)[p]?).map resetLinks = (st[p]?).map resetLinks := by
  rw [getElem?_updateAt]
  by_cases hp : p = k
  · subst hp
    cases st[p]? <;> simp [hf]
  · simp [hp]

theorem linkStep_some {index : List (String × Nat)} {imp : String} {j : Nat}
    (k : Nat) (uidK : String) (st : List Sym)
    (h : dictLookup imp index = some j) :
    linkStep index k uidK imp st =
      updateAt j (fun s => { s with used_by := addIfAbsent uidK s.used_by })
        (updateAt k
          (fun s => { s with depends_on := addIfAbsent imp s.depends_on }) st) := by
  unfold linkStep
  rw [h]

theorem linkStep_none {index : List (String × Nat)} {imp : String}
    (k : Nat) (uidK : String) (st : List Sym)
    (h : dictLookup imp index = none) :
    linkStep index k uidK imp st =
      updateAt k
        (fun s => { s with ext_dependencies := addIfAbsent imp s.ext_dependencies })
        st := by
  unfold linkStep
  rw [h]

theorem map_resetLinks_linkStep (index : List (String × Nat)) (k : Nat)
    (uidK : String) (imp : String) (st : List Sym) (p : Nat) :
    ((linkStep index k uidK imp st)[p]?).map resetLinks =
      (st[p]?).map resetLinks := by
  cases h : dictLookup imp index with
  | some j =>
      rw [linkStep_some k uidK st h]
      exact (map_resetLinks_updateAt j
          (fun s => { s with used_by := addIfAbsent uidK s.used_by }) _
          (fun s => rfl) p).trans
        (map_resetLinks_updateAt k
          (fun s => { s with depends_on := addIfAbsent imp s.depends_on }) st
          (fun s => rfl) p)
  | none =>
      rw [linkStep_none k uidK st h]
      exact map_resetLinks_updateAt k
        (fun s => { s with ext_dependencies := addIfAbsent imp s.ext_dependencies })
        st (fun s => rfl) p

theorem map_resetLinks_linkFold (index : List (String × Nat)) (k : Nat)
    (uidK : String) (imps : List String) : ∀ (st : List Sym) (p : Nat),
    ((linkFold index k uidK imps st)[p]?).map resetLinks =
      (st[p]?).map resetLinks := by
  induction imps with
  | nil => intro st p; rfl
  | cons imp rest ih =>
      intro st p
      rw [linkFold_cons, ih, map_resetLinks_linkStep]

theorem projAt_updateAt {β : Type} (proj : Sym → β) (dflt : β) (k : Nat)
    (f : Sym → Sym) (st : List Sym) (p : Nat) :
    (((updateAt k f st)[p]?).map proj).getD dflt =
      if p = k then ((st[k]?).map (fun s => proj (f s))).getD dflt
      else ((st[p]?).map proj).getD dflt := by
  rw [getElem?_updateAt]
  by_cases hp : p = k
  · subst hp
    rw [if_pos rfl, if_pos rfl]
    cases st[p]? <;> simp
  · rw [if_neg hp, if_neg hp]

theorem getElem?_of_lt {α : Type} {st : List α} {k : Nat} (hk : k < st.length) :
    ∃ sk, st[k]? = some sk := ⟨st[k], List.getElem?_eq_getElem hk⟩

theorem depAt_linkStep_eq (index : List (String × Nat)) (k : Nat)
    (uidK imp : String) (st : List Sym) (hk : k < st.length) (p : Nat) :
    depAt (linkStep index k uidK imp st) p =
      if p = k ∧ (dictLookup imp index).isSome = true then
        addIfAbsent imp (depAt st p)
      else depAt st p := by
  obtain ⟨sk, hskeq⟩ := getElem?_of_lt hk
  cases h : dictLookup imp index with
  | none =>
      rw [linkStep_none k uidK st h]
      show (((updateAt k _ st)[p]?).map Sym.depends_on).getD [] = _
      rw [projAt_updateAt Sym.depends_on [] k
        (fun s => { s with ext_dependencies := addIfAbsent imp s.ext_dependencies })
        st p]
      by_cases hp : p = k
      · subst hp
        simp only [if_pos rfl, hskeq, Option.isSome_none]
        simp [depAt, hskeq]
      · simp [hp, depAt]
  | some j =>
      rw [linkStep_some k uidK st h]
      show (((updateAt j _ (updateAt k _ st))[p]?).map Sym.depends_on).getD [] = _
      rw [projAt_updateAt Sym.depends_on [] j
        (fun s => { s with used_by := addIfAbsent uidK s.used_by })
        (updateAt k
          (fun s => { s with depends_on := addIfAbsent imp s.depends_on }) st) p]
      have houter :
          (((updateAt k
              (fun s => { s with depends_on := addIfAbsent imp s.depends_on })
              st)[p]?).map Sym.depends_on).getD [] =
            if p = k then addIfAbsent imp (depAt st p) else depAt st p := by
        rw [projAt_updateAt Sym.depends_on [] k
          (fun s => { s with depends_on := addIfAbsent imp s.depends_on }) st p]
        by_cases hp : p = k
        · subst hp
          simp [hskeq, depAt]
        · simp [hp, depAt]
      by_cases hpj : p = j
      · subst hpj
        rw [if_pos rfl]
        show (((updateAt k _ st)[p]?).map
            (fun s => Sym.depends_on { s with used_by := addIfAbsent uidK s.used_by })).getD [] = _
        have : (fun s => Sym.depends_on
            { s with used_by := addIfAbsent uidK s.used_by }) = Sym.depends_on := rfl
        rw [this, houter]
        by_cases hp : p = k <;> simp [hp, h, depAt]
      · rw [if_neg hpj]
        show depAt (updateAt k _ st) p = _
        unfold depAt
        rw [houter]
        by_cases hp : p = k <;> simp [hp, h, depAt]

theorem extAt_linkStep_eq (index : List (String × Nat)) (k : Nat)
    (uidK imp : String) (st : List Sym) (hk : k < st.length) (p : Nat) :
    extAt (linkStep index k uidK imp st) p =
      if p = k ∧ dictLookup imp index = none then
        addIfAbsent imp (extAt st p)
      else extAt st p := by
  obtain ⟨sk, hskeq⟩ := getElem?_of_lt hk
  cases h : dictLookup imp index with
  | none =>
      rw [linkStep_none k uidK st h]
      show (((updateAt k _ st)[p]?).map Sym.ext_dependencies).getD [] = _
      rw [projAt_updateAt Sym.ext_dependencies [] k
        (fun s => { s with ext_dependencies := addIfAbsent imp s.ext_dependencies })
        st p]
      by_cases hp : p = k
      · subst hp
        simp [hskeq, extAt]
      · simp [hp, extAt]
  | some j =>
      rw [linkStep_some k uidK st h]
      show (((updateAt j _ (updateAt k _ st))[p]?).map Sym.ext_dependencies).getD [] = _
      rw [projAt_updateAt Sym.ext_dependencies [] j
        (fun s => { s with used_by := addIfAbsent uidK s.used_by })
        (updateAt k
          (fun s => { s with depends_on := addIfAbsent imp s.depends_on }) st) p]
      have houter :
          (((updateAt k
              (fun s => { s with depends_on := addIfAbsent imp s.depends_on })
              st)[p]?).map Sym.ext_dependencies).getD [] = extAt st p := by
        rw [projAt_updateAt Sym.ext_dependencies [] k
          (fun s => { s with depends_on := addIfAbsent imp s.depends_on }) st p]
        by_cases hp : p = k
        · subst hp
          simp [hskeq, extAt]
        · simp [hp, extAt]
      by_cases hpj : p = j
      · subst hpj
        rw [if_pos rfl]
        have : (fun s => Sym.ext_dependencies
            { s with used_by := addIfAbsent uidK s.used_by }) = Sym.ext_dependencies := rfl
        rw [this, houter]
        simp [h]
      · rw [if_neg hpj]
        show extAt (updateAt k _ st) p = _
        unfold extAt
        rw [houter]
        simp [h, extAt]

theorem usedAt_linkStep_eq (index : List (String × Nat)) (k : Nat)
    (uidK imp : String) (st : List Sym)
    (hidx : ∀ u j, dictLookup u index = some j → j < st.length) (p : Nat) :
    usedAt (linkStep index k uidK imp st) p =
      if dictLookup imp index = some p then
        addIfAbsent uidK (usedAt st p)
      else usedAt st p := by
  cases h : dictLookup imp index with
  | none =>
      rw [linkStep_none k uidK st h]
      show (((updateAt k _ st)[p]?).map Sym.used_by).getD [] = _
      rw [projAt_updateAt Sym.used_by [] k
        (fun s => { s with ext_dependencies := addIfAbsent imp s.ext_dependencies })
        st p]
      by_cases hp : p = k
      · subst hp
        cases hc : st[p]? <;> simp [usedAt, hc]
      · simp [hp, usedAt]
  | some j =>
      have hj : j < st.length := hidx imp j h
      obtain ⟨sj, hsjeq⟩ := getElem?_of_lt hj
      rw [linkStep_some k uidK st h]
      show (((updateAt j _ (updateAt k _ st))[p]?).map Sym.used_by).getD [] = _
      rw [projAt_updateAt Sym.used_by [] j
        (fun s => { s with used_by := addIfAbsent uidK s.used_by })
        (updateAt k
          (fun s => { s with depends_on := addIfAbsent imp s.depends_on }) st) p]
      have hinner : ∀ q,
          (((updateAt k
              (fun s => { s with depends_on := addIfAbsent imp s.depends_on })
              st)[q]?).map Sym.used_by).getD [] = usedAt st q := by
        intro q
        rw [projAt_updateAt Sym.used_by [] k
          (fun s => { s with depends_on := addIfAbsent imp s.depends_on }) st q]
        by_cases hq : q = k
        · subst hq
          cases hc : st[q]? <;> simp [usedAt, hc]
        · simp [hq, usedAt]
      by_cases hpj : p = j
      · subst hpj
        rw [if_pos rfl]
        have hmapeq :
            (((updateAt k
                (fun s => { s with depends_on := addIfAbsent imp s.depends_on })
                st)[p]?).map (fun s => Sym.used_by
                  { s with used_by := addIfAbsent uidK s.used_by })).getD [] =
              addIfAbsent uidK
                ((((updateAt k
                  (fun s => { s with depends_on := addIfAbsent imp s.depends_on })
                  st)[p]?).map Sym.used_by).getD []) := by
          have hlen : p < (updateAt k
              (fun s => { s with depends_on := addIfAbsent imp s.depends_on })
              st).length := by
            rw [length_updateAt]; exact hj
          obtain ⟨t, ht⟩ := getElem?_of_lt hlen
          rw [ht]
          rfl
        rw [hmapeq, hinner]
        simp [h]
      · rw [if_neg hpj]
        show usedAt (updateAt k _ st) p = _
        unfold usedAt
        rw [hinner]
        have : ¬ (some j = some p) := fun hc => hpj (by injection hc with hh; exact hh.symm)
        simp [h, this, usedAt]

/-! ### Membership through the import fold -/

theorem depAt_linkFold_mem (index : List (String × Nat)) (k : Nat)
    (uidK : String) (imps : List String) : ∀ (st : List Sym), k < st.length →
    ∀ (p : Nat) (x : String),
      (x ∈ depAt (linkFold index k uidK imps st) p ↔
        x ∈ depAt st p ∨
          (p = k ∧ x ∈ imps ∧ (dictLookup x index).isSome = true)) := by
  induction imps with
  | nil =>
      intro st hk p x
      rw [linkFold_nil]
      simp
  | cons imp rest ih =>
      intro st hk p x
      rw [linkFold_cons]
      have hk' : k < (linkStep index k uidK imp st).length := by
        rw [length_linkStep]; exact hk
      rw [ih _ hk', depAt_linkStep_eq index k uidK imp st hk p]
      by_cases hcond : p = k ∧ (dictLookup imp index).isSome = true
      · obtain ⟨hpk, hsome⟩ := hcond
        subst hpk
        rw [if_pos ⟨rfl, hsome⟩, mem_addIfAbsent]
        constructor
        · rintro ((rfl | hmem) | ⟨-, hrest, hsx⟩)
          · exact Or.inr ⟨rfl, List.mem_cons_self _ _, hsome⟩
          · exact Or.inl hmem
          · exact Or.inr ⟨rfl, List.mem_cons_of_mem _ hrest, hsx⟩
        · rintro (hmem | ⟨-, hcons, hsx⟩)
          · exact Or.inl (Or.inr hmem)
          · rcases List.mem_cons.mp hcons with rfl | hrest
            · exact Or.inl (Or.inl rfl)
            · exact Or.inr ⟨rfl, hrest, hsx⟩
      · rw [if_neg hcond]
        constructor
        · rintro (hmem | ⟨rfl, hrest, hsx⟩)
          · exact Or.inl hmem
          · exact Or.inr ⟨rfl, List.mem_cons_of_mem _ hrest, hsx⟩
        · rintro (hmem | ⟨rfl, hcons, hsx⟩)
          · exact Or.inl hmem
          · rcases List.mem_cons.mp hcons with rfl | hrest
            · exact absurd ⟨rfl, hsx⟩ hcond
            · exact Or.inr ⟨rfl, hrest, hsx⟩

theorem extAt_linkFold_mem (index : List (String × Nat)) (k : Nat)
    (uidK : String) (imps : List String) : ∀ (st : List Sym), k < st.length →
    ∀ (p : Nat) (x : String),
      (x ∈ extAt (linkFold index k uidK imps st) p ↔
        x ∈ extAt st p ∨
          (p = k ∧ x ∈ imps ∧ dictLookup x index = none)) := by
  induction imps with
  | nil =>
      intro st hk p x
      rw [linkFold_nil]
      simp
  | cons imp rest ih =>
      intro st hk p x
      rw [linkFold_cons]
      have hk' : k < (linkStep index k uidK imp st).length := by
        rw [length_linkStep]; exact hk
      rw [ih _ hk', extAt_linkStep_eq index k uidK imp st hk p]
      by_cases hcond : p = k ∧ dictLookup imp index = none
      · obtain ⟨hpk, hnone⟩ := hcond
        subst hpk
        rw [if_pos ⟨rfl, hnone⟩, mem_addIfAbsent]
        constructor
        · rintro ((rfl | hmem) | ⟨-, hrest, hsx⟩)
          · exact Or.inr ⟨rfl, List.mem_cons_self _ _, hnone⟩
          · exact Or.inl hmem
          · exact Or.inr ⟨rfl, List.mem_cons_of_mem _ hrest, hsx⟩
        · rintro (hmem | ⟨-, hcons, hsx⟩)
          · exact Or.inl (Or.inr hmem)
          · rcases List.mem_cons.mp hcons with rfl | hrest
            · exact Or.inl (Or.inl rfl)
            · exact Or.inr ⟨rfl, hrest, hsx⟩
      · rw [if_neg hcond]
        constructor
        · rintro (hmem | ⟨rfl, hrest, hsx⟩)
          · exact Or.inl hmem
          · exact Or.inr ⟨rfl, List.mem_cons_of_mem _ hrest, hsx⟩
        · rintro (hmem | ⟨rfl, hcons, hsx⟩)
          · exact Or.inl hmem
          · rcases List.mem_cons.mp hcons with rfl | hrest
            · exact absurd ⟨rfl, hsx⟩ hcond
            · exact Or.inr ⟨rfl, hrest, hsx⟩

theorem usedAt_linkFold_mem (index : List (String × Nat)) (k : Nat)
    (uidK : String) (imps : List String) : ∀ (st : List Sym),
    (∀ u j, dictLookup u index = some j → j < st.length) →
    ∀ (p : Nat) (x : String),
      (x ∈ usedAt (linkFold index k uidK imps st) p ↔
        x ∈ usedAt st p ∨
          (x = uidK ∧ ∃ i ∈ imps, dictLookup i index = some p)) := by
  induction imps with
  | nil =>
      intro st hidx p x
      rw [linkFold_nil]
      simp
  | cons imp rest ih =>
      intro st hidx p x
      rw [linkFold_cons]
      have hidx' : ∀ u j, dictLookup u index = some j →
          j < (linkStep index k uidK imp st).length := by
        intro u j hj
        rw [length_linkStep]
        exact hidx u j hj
      rw [ih _ hidx', usedAt_linkStep_eq index k uidK imp st hidx p]
      by_cases hcond : dictLookup imp index = some p
      · rw [if_pos hcond, mem_addIfAbsent]
        constructor
        · rintro ((rfl | hmem) | ⟨rfl, i, hi, hli⟩)
          · exact Or.inr ⟨rfl, imp, List.mem_cons_self _ _, hcond⟩
          · exact Or.inl hmem
          · exact Or.inr ⟨rfl, i, List.mem_cons_of_mem _ hi, hli⟩
        · rintro (hmem | ⟨rfl, i, hcons, hli⟩)
          · exact Or.inl (Or.inr hmem)
          · exact Or.inl (Or.inl rfl)
      · rw [if_neg hcond]
        constructor
        · rintro (hmem | ⟨rfl, i, hi, hli⟩)
          · exact Or.inl hmem
          · exact Or.inr ⟨rfl, i, List.mem_cons_of_mem _ hi, hli⟩
        · rintro (hmem | ⟨rfl, i, hcons, hli⟩)
          · exact Or.inl hmem
          · rcases List.mem_cons.mp hcons with rfl | hrest
            · exact absurd hli hcond
            · exact Or.inr ⟨rfl, i, hrest, hli⟩

/-! ### The whole-table invariants of `add_dependencies` -/

theorem buildIndex_lt (syms : List Sym) :
    ∀ (u : String) (j : Nat),
      dictLookup u (buildIndex syms) = some j → j < syms.length := by
  intro u j h
  rw [buildIndex_lookup] at h
  cases hr : lastIdxOf u syms with
  | none =>
      rw [hr] at h
      exact absurd h (by simp)
  | some j' =>
      rw [hr] at h
      obtain rfl : j' = j := by simpa using h
      obtain ⟨t, ht, _⟩ := lastIdxOf_mem hr
      by_contra hge
      rw [List.getElem?_eq_none (Nat.le_of_not_lt hge)] at ht
      exact Option.noConfusion ht

theorem buildIndex_isSome_iff (syms : List Sym) (x : String) :
    (dictLookup x (buildIndex syms)).isSome = true ↔
      ∃ s ∈ syms, s.UID = x := by
  rw [buildIndex_lookup, ← lastIdxOf_isSome_iff]
  cases lastIdxOf x syms <;> simp

theorem impAt_of_core {st' st : List Sym}
    (h : ∀ p : Nat, (st'[p]?).map resetLinks = (st[p]?).map resetLinks) (p : Nat) :
    impAt st' p = impAt st p := by
  have hp := h p
  unfold impAt
  cases h1 : st'[p]? with
  | none =>
      rw [h1] at hp
      cases h2 : st[p]? with
      | none => rfl
      | some b => rw [h2] at hp; exact absurd hp (by simp)
  | some a =>
      rw [h1] at hp
      cases h2 : st[p]? with
      | none => rw [h2] at hp; exact absurd hp (by simp)
      | some b =>
          rw [h2] at hp
          have : resetLinks a = resetLinks b := by simpa using hp
          have himp : a.imports = b.imports := by
            simpa [resetLinks] using congrArg Sym.imports this
          simp [himp]

theorem uidAt_of_core {st' st : List Sym}
    (h : ∀ p : Nat, (st'[p]?).map resetLinks = (st[p]?).map resetLinks) (p : Nat) :
    uidAt st' p = uidAt st p := by
  have hp := h p
  unfold uidAt
  cases h1 : st'[p]? with
  | none =>
      rw [h1] at hp
      cases h2 : st[p]? with
      | none => rfl
      | some b => rw [h2] at hp; exact absurd hp (by simp)
  | some a =>
      rw [h1] at hp
      cases h2 : st[p]? with
      | none => rw [h2] at hp; exact absurd hp (by simp)
      | some b =>
          rw [h2] at hp
          have : resetLinks a = resetLinks b := by simpa using hp
          have huid : a.UID = b.UID := by
            simpa [resetLinks] using congrArg Sym.UID this
          simp [huid]

theorem impAt_map_resetLinks (syms : List Sym) (p : Nat) :
    impAt (syms.map resetLinks) p = impAt syms p := by
  unfold impAt
  rw [List.getElem?_map]
  cases syms[p]? <;> rfl

theorem uidAt_map_resetLinks (syms : List Sym) (p : Nat) :
    uidAt (syms.map resetLinks) p = uidAt syms p := by
  unfold uidAt
  rw [List.getElem?_map]
  cases syms[p]? <;> rfl

theorem depAt_map_resetLinks (syms : List Sym) (p : Nat) :
    depAt (syms.map resetLinks) p = [] := by
  unfold depAt
  rw [List.getElem?_map]
  cases syms[p]? <;> rfl

theorem extAt_map_resetLinks (syms : List Sym) (p : Nat) :
    extAt (syms.map resetLinks) p = [] := by
  unfold extAt
  rw [List.getElem?_map]
  cases syms[p]? <;> rfl

theorem usedAt_map_resetLinks (syms : List Sym) (p : Nat) :
    usedAt (syms.map resetLinks) p = [] := by
  unfold usedAt
  rw [List.getElem?_map]
  cases syms[p]? <;> rfl

theorem linkLoop_succ (index : List (String × Nat)) (st0 : List Sym) (K : Nat) :
    linkLoop index st0 (K + 1) =
      linkImports index K (linkLoop index st0 K) := by
  unfold linkLoop
  rw [List.range_succ, List.foldl_append, List.foldl_cons, List.foldl_nil]

/-- The invariant of the linking loop after the first `K` symbols have
been processed: lengths and non-link fields are untouched, forward
edges (`depends_on`/`ext_dependencies`) are exactly the processed
symbols' resolved/unresolved imports, and back edges (`used_by`) are
exactly the uids of processed importers resolving to this position. -/
theorem linkLoop_invariant (syms : List Sym) :
    ∀ K, K ≤ syms.length →
    ((linkLoop (buildIndex syms) (syms.map resetLinks) K).length = syms.length ∧
     (∀ p : Nat, ((linkLoop (buildIndex syms) (syms.map resetLinks) K)[p]?).map resetLinks =
        ((syms.map resetLinks)[p]?).map resetLinks) ∧
     (∀ p x, x ∈ depAt (linkLoop (buildIndex syms) (syms.map resetLinks) K) p ↔
        p < K ∧ x ∈ impAt syms p ∧
          (dictLookup x (buildIndex syms)).isSome = true) ∧
     (∀ p x, x ∈ extAt (linkLoop (buildIndex syms) (syms.map resetLinks) K) p ↔
        p < K ∧ x ∈ impAt syms p ∧ dictLookup x (buildIndex syms) = none) ∧
     (∀ p x, x ∈ usedAt (linkLoop (buildIndex syms) (syms.map resetLinks) K) p ↔
        ∃ k, k < K ∧ x = uidAt syms k ∧
          ∃ i ∈ impAt syms k, dictLookup i (buildIndex syms) = some p)) := by
  intro K
  induction K with
  | zero =>
      intro _
      refine ⟨by simp [linkLoop], fun p => rfl, ?_, ?_, ?_⟩
      · intro p x
        simp [linkLoop, depAt_map_resetLinks]
      · intro p x
        simp [linkLoop, extAt_map_resetLinks]
      · intro p x
        simp [linkLoop, usedAt_map_resetLinks]
  | succ K ih =>
      intro hK1
      have hKle : K ≤ syms.length := Nat.le_of_succ_le hK1
      have hKlt : K < syms.length := hK1
      obtain ⟨ihlen, ihcore, ihdep, ihext, ihused⟩ := ih hKle
      set st := linkLoop (buildIndex syms) (syms.map resetLinks) K with hst
      have hkst : K < st.length := by rw [ihlen]; exact hKlt
      obtain ⟨sk, hsk⟩ := getElem?_of_lt hkst
      have hLI : linkImports (buildIndex syms) K st =
          linkFold (buildIndex syms) K sk.UID sk.imports st := by
        unfold linkImports
        rw [hsk]
      have himpk : sk.imports = impAt syms K := by
        have h1 : impAt st K = impAt syms K := by
          rw [impAt_of_core ihcore, impAt_map_resetLinks]
        rw [← h1]
        unfold impAt
        rw [hsk]
        rfl
      have huidk : sk.UID = uidAt syms K := by
        have h1 : uidAt st K = uidAt syms K := by
          rw [uidAt_of_core ihcore, uidAt_map_resetLinks]
        rw [← h1]
        unfold uidAt
        rw [hsk]
        rfl
      have hidxst : ∀ u j, dictLookup u (buildIndex syms) = some j →
          j < st.length := by
        intro u j hj
        rw [ihlen]
        exact buildIndex_lt syms u j hj
      refine ⟨?_, ?_, ?_, ?_, ?_⟩
      · rw [linkLoop_succ, hLI, length_linkFold, ihlen]
      · intro p
        rw [linkLoop_succ, hLI, map_resetLinks_linkFold]
        exact ihcore p
      · intro p x
        rw [linkLoop_succ, hLI,
            depAt_linkFold_mem (buildIndex syms) K sk.UID sk.imports st hkst p x,
            ihdep p x, himpk]
        constructor
        · rintro (⟨hpK, hximp, hs⟩ | ⟨rfl, hximp, hs⟩)
          · exact ⟨Nat.lt_succ_of_lt hpK, hximp, hs⟩
          · exact ⟨Nat.lt_succ_self _, hximp, hs⟩
        · rintro ⟨hpK1, hximp, hs⟩
          rcases Nat.lt_succ_iff_lt_or_eq.mp hpK1 with hlt | rfl
          · exact Or.inl ⟨hlt, hximp, hs⟩
          · exact Or.inr ⟨rfl, hximp, hs⟩
      · intro p x
        rw [linkLoop_succ, hLI,
            extAt_linkFold_mem (buildIndex syms) K sk.UID sk.imports st hkst p x,
            ihext p x, himpk]
        constructor
        · rintro (⟨hpK, hximp, hs⟩ | ⟨rfl, hximp, hs⟩)
          · exact ⟨Nat.lt_succ_of_lt hpK, hximp, hs⟩
          · exact ⟨Nat.lt_succ_self _, hximp, hs⟩
        · rintro ⟨hpK1, hximp, hs⟩
          rcases Nat.lt_succ_iff_lt_or_eq.mp hpK1 with hlt | rfl
          · exact Or.inl ⟨hlt, hximp, hs⟩
          · exact Or.inr ⟨rfl, hximp, hs⟩
      · intro p x
        rw [linkLoop_succ, hLI,
            usedAt_linkFold_mem (buildIndex syms) K sk.UID sk.imports st hidxst p x,
            ihused p x, himpk, huidk]
        constructor
        · rintro (⟨k, hkK, hxk, hik⟩ | ⟨rfl, hik⟩)
          · exact ⟨k, Nat.lt_succ_of_lt hkK, hxk, hik⟩
          · exact ⟨K, Nat.lt_succ_self _, rfl, hik⟩
        · rintro ⟨k, hkK1, hxk, hik⟩
          rcases Nat.lt_succ_iff_lt_or_eq.mp hkK1 with hlt | rfl
          · exact Or.inl ⟨k, hlt, hxk, hik⟩
          · exact Or.inr ⟨hxk, hik⟩

theorem addDependencies_eq (syms : List Sym) :
    addDependencies syms =
      (linkLoop (buildIndex syms) (syms.map resetLinks)
        (syms.map resetLinks).length).map sortLinks := rfl

/-- What `add_dependencies` computes, position by position: non-link
fields are preserved; `depends_on`/`ext_dependencies` are exactly the
symbol's resolved/unresolved imports; `used_by` is exactly the uids of
the symbols whose imports the index resolves to this position. -/
theorem addDependencies_char (syms : List Sym) :
    (addDependencies syms).length = syms.length ∧
    (∀ p : Nat, ((addDependencies syms)[p]?).map resetLinks =
        (syms[p]?).map resetLinks) ∧
    (∀ (p : Nat) (A : Sym), (addDependencies syms)[p]? = some A →
      A.UID = uidAt syms p ∧ A.imports = impAt syms p ∧
      (∀ x, x ∈ A.depends_on ↔
        x ∈ impAt syms p ∧ (dictLookup x (buildIndex syms)).isSome = true) ∧
      (∀ x, x ∈ A.ext_dependencies ↔
        x ∈ impAt syms p ∧ dictLookup x (buildIndex syms) = none) ∧
      (∀ x, x ∈ A.used_by ↔
        ∃ k, k < syms.length ∧ x = uidAt syms k ∧
          ∃ i ∈ impAt syms k, dictLookup i (buildIndex syms) = some p)) := by
  have hlen0 : (syms.map resetLinks).length = syms.length := List.length_map _ _
  obtain ⟨ihlen, ihcore, ihdep, ihext, ihused⟩ :=
    linkLoop_invariant syms (syms.map resetLinks).length (le_of_eq hlen0)
  set linked := linkLoop (buildIndex syms) (syms.map resetLinks)
    (syms.map resetLinks).length with hlinked
  have hlenA : (addDependencies syms).length = syms.length := by
    rw [addDependencies_eq, List.length_map, ← hlinked, ihlen]
  refine ⟨hlenA, ?_, ?_⟩
  · intro p
    rw [addDependencies_eq, List.getElem?_map, ← hlinked]
    have h1 : ((linked[p]?).map sortLinks).map resetLinks =
        (linked[p]?).map resetLinks := by
      cases linked[p]? <;> rfl
    rw [h1, ihcore p, List.getElem?_map]
    cases syms[p]? <;> rfl
  · intro p A hA
    rw [addDependencies_eq, List.getElem?_map, ← hlinked] at hA
    cases hB : linked[p]? with
    | none => rw [hB] at hA; exact absurd hA (by simp)
    | some B =>
        rw [hB] at hA
        have hAB : A = sortLinks B := by
          have := hA
          simp only [Option.map_some] at this
          exact (Option.some_inj.mp this).symm
        have hplen : p < syms.length := by
          have : p < linked.length := by
            by_contra hge
            rw [List.getElem?_eq_none (Nat.le_of_not_lt hge)] at hB
            exact Option.noConfusion hB
          rw [ihlen] at this
          exact this
        have hdepB : B.depends_on = depAt linked p := by
          unfold depAt
          rw [hB]
          rfl
        have hextB : B.ext_dependencies = extAt linked p := by
          unfold extAt
          rw [hB]
          rfl
        have husedB : B.used_by = usedAt linked p := by
          unfold usedAt
          rw [hB]
          rfl
        have hcorep := ihcore p
        have himpB : B.imports = impAt syms p := by
          have h1 : impAt linked p = impAt syms p := by
            rw [impAt_of_core ihcore, impAt_map_resetLinks]
          rw [← h1]
          unfold impAt
          rw [hB]
          rfl
        have huidB : B.UID = uidAt syms p := by
          have h1 : uidAt linked p = uidAt syms p := by
            rw [uidAt_of_core ihcore, uidAt_map_resetLinks]
          rw [← h1]
          unfold uidAt
          rw [hB]
          rfl
        subst hAB
        refine ⟨huidB, himpB, ?_, ?_, ?_⟩
        · intro x
          show x ∈ pySorted B.depends_on ↔ _
          rw [mem_pySorted, hdepB, ihdep p x]
          constructor
          · rintro ⟨-, hximp, hs⟩
            exact ⟨hximp, hs⟩
          · rintro ⟨hximp, hs⟩
            exact ⟨by rw [hlen0]; exact hplen, hximp, hs⟩
        · intro x
          show x ∈ pySorted B.ext_dependencies ↔ _
          rw [mem_pySorted, hextB, ihext p x]
          constructor
          · rintro ⟨-, hximp, hs⟩
            exact ⟨hximp, hs⟩
          · rintro ⟨hximp, hs⟩
            exact ⟨by rw [hlen0]; exact hplen, hximp, hs⟩
        · intro x
          show x ∈ pySorted B.used_by ↔ _
          rw [mem_pySorted, husedB, ihused p x]
          constructor
          · rintro ⟨k, hk, hxk, hik⟩
            exact ⟨k, by rw [← hlen0]; exact hk, hxk, hik⟩
          · rintro ⟨k, hk, hxk, hik⟩
            exact ⟨k, by rw [hlen0]; exact hk, hxk, hik⟩

theorem uidAt_inj_of_nodup {syms : List Sym}
    (hnd : (syms.map Sym.UID).Nodup) {k p : Nat}
    (hk : k < syms.length) (hp : p < syms.length)
    (h : uidAt syms k = uidAt syms p) : k = p := by
  obtain ⟨sk, hsk⟩ := getElem?_of_lt hk
  obtain ⟨sp, hsp⟩ := getElem?_of_lt hp
  have h1 := lastIdxOf_of_nodup hnd k sk hsk
  have h2 := lastIdxOf_of_nodup hnd p sp hsp
  have hu : sk.UID = sp.UID := by
    have e1 : uidAt syms k = sk.UID := by unfold uidAt; rw [hsk]; rfl
    have e2 : uidAt syms p = sp.UID := by unfold uidAt; rw [hsp]; rfl
    rw [e1, e2] at h
    exact h
  rw [hu] at h1
  rw [h1] at h2
  exact Option.some_inj.mp h2

/-- C2, amended: when no two symbols share a `UID` (thus outside the
documented duplicate-uid situation), linking is exactly symmetric:
`B.uid ∈ A.depends_on` iff `A.uid ∈ B.used_by`, for all symbols `A`,
`B` of the linked table. -/
theorem claim_C2_amended (syms : List Sym)
    (hnd : (syms.map Sym.UID).Nodup) :
    ∀ A ∈ addDependencies syms, ∀ B ∈ addDependencies syms,
      (B.UID ∈ A.depends_on ↔ A.UID ∈ B.used_by) := by
  obtain ⟨hlen, -, hchar⟩ := addDependencies_char syms
  intro A hA B hB
  obtain ⟨p, hp⟩ := List.mem_iff_getElem?.mp hA
  obtain ⟨q, hq⟩ := List.mem_iff_getElem?.mp hB
  have hplen : p < syms.length := by
    rw [← hlen]
    by_contra hge
    rw [List.getElem?_eq_none (Nat.le_of_not_lt hge)] at hp
    exact Option.noConfusion hp
  have hqlen : q < syms.length := by
    rw [← hlen]
    by_contra hge
    rw [List.getElem?_eq_none (Nat.le_of_not_lt hge)] at hq
    exact Option.noConfusion hq
  obtain ⟨huidA, himpA, hdepA, hextA, husedA⟩ := hchar p A hp
  obtain ⟨huidB, himpB, hdepB, hextB, husedB⟩ := hchar q B hq
  obtain ⟨sq, hsq⟩ := getElem?_of_lt hqlen
  have hBuid : B.UID = sq.UID := by
    rw [huidB]
    unfold uidAt
    rw [hsq]
    rfl
  have hlookB : dictLookup B.UID (buildIndex syms) = some q := by
    rw [buildIndex_lookup, hBuid, lastIdxOf_of_nodup hnd q sq hsq]
  constructor
  · intro hmem
    obtain ⟨himem, -⟩ := (hdepA B.UID).mp hmem
    exact (husedB A.UID).mpr ⟨p, hplen, huidA, B.UID, himem, hlookB⟩
  · intro hmem
    obtain ⟨k, hk, hxk, i, hik, hlooki⟩ := (husedB A.UID).mp hmem
    have hkp : k = p := by
      refine uidAt_inj_of_nodup hnd hk hplen ?_
      rw [← hxk, huidA]
    subst hkp
    have hiB : i = B.UID := by
      rw [buildIndex_lookup] at hlooki
      cases hr : lastIdxOf i syms with
      | none =>
          rw [hr] at hlooki
          exact absurd hlooki (by simp)
      | some j =>
          rw [hr] at hlooki
          obtain rfl : j = q := by simpa using hlooki
          obtain ⟨t, ht, htx⟩ := lastIdxOf_mem hr
          rw [hsq] at ht
          have : sq = t := Option.some_inj.mp ht
          rw [hBuid, this, htx]
    rw [hiB] at hik
    exact (hdepA B.UID).mpr ⟨hik, by rw [hlookB]; rfl⟩

/-- Witness for the amended C2 on a duplicate-free two-symbol table. -/
theorem claim_C2_amended_witness :
    (((addDependencies symsNodup).getD 1 default).UID ∈
        ((addDependencies symsNodup).getD 0 default).depends_on ↔
      ((addDependencies symsNodup).getD 0 default).UID ∈
        ((addDependencies symsNodup).getD 1 default).used_by) :=
  claim_C2_amended symsNodup (by decide) _ (by decide) _ (by decide)

/-- C4: after linking, every string in a symbol's `imports` lands in
exactly one of `depends_on` (when some symbol of the table carries it
as uid) or `ext_dependencies` (otherwise) — never both, never
neither. -/
theorem claim_C4_import_partition (syms : List Sym) (A : Sym)
    (hA : A ∈ addDependencies syms) :
    ∀ i ∈ A.imports,
      ((∃ S ∈ syms, S.UID = i) →
          i ∈ A.depends_on ∧ i ∉ A.ext_dependencies) ∧
      ((¬ ∃ S ∈ syms, S.UID = i) →
          i ∈ A.ext_dependencies ∧ i ∉ A.depends_on) := by
  obtain ⟨p, hp⟩ := List.mem_iff_getElem?.mp hA
  obtain ⟨-, -, hchar⟩ := addDependencies_char syms
  obtain ⟨huid, himp, hdep, hext, hused⟩ := hchar p A hp
  intro i hi
  have himem : i ∈ impAt syms p := by rw [← himp]; exact hi
  constructor
  · intro hex
    have hsome : (dictLookup i (buildIndex syms)).isSome = true :=
      (buildIndex_isSome_iff syms i).mpr hex
    refine ⟨(hdep i).mpr ⟨himem, hsome⟩, ?_⟩
    intro hcontra
    have hnone := ((hext i).mp hcontra).2
    rw [hnone] at hsome
    exact absurd hsome (by simp)
  · intro hnex
    have hnone : dictLookup i (buildIndex syms) = none := by
      cases hc : dictLookup i (buildIndex syms) with
      | none => rfl
      | some j =>
          exact absurd ((buildIndex_isSome_iff syms i).mp (by simp [hc])) hnex
    refine ⟨(hext i).mpr ⟨himem, hnone⟩, ?_⟩
    intro hcontra
    have hsome := ((hdep i).mp hcontra).2
    rw [hnone] at hsome
    exact absurd hsome (by simp)

/-- Witness for C4: in the linked two-symbol table, the resolved
entry `"b"` sits in `depends_on` and not in `ext_dependencies`. -/
theorem claim_C4_import_partition_witness :
    (∃ S ∈ symsNodup, S.UID = "b") ∧
    ("b" ∈ ((addDependencies symsNodup).getD 0 default).depends_on ∧
     "b" ∉ ((addDependencies symsNodup).getD 0 default).ext_dependencies) :=
  ⟨by decide,
   (claim_C4_import_partition symsNodup _ (by decide) "b" (by decide)).1
     (by decide)⟩

theorem map_resetLinks_addDependencies (syms : List Sym) :
    (addDependencies syms).map resetLinks = syms.map resetLinks := by
  apply List.ext_getElem?
  intro i
  rw [List.getElem?_map, List.getElem?_map]
  exact (addDependencies_char syms).2.1 i

theorem map_UID_addDependencies (syms : List Sym) :
    (addDependencies syms).map Sym.UID = syms.map Sym.UID := by
  apply List.ext_getElem?
  intro i
  rw [List.getElem?_map, List.getElem?_map]
  have h := (addDependencies_char syms).2.1 i
  calc ((addDependencies syms)[i]?).map Sym.UID
      = (((addDependencies syms)[i]?).map resetLinks).map Sym.UID := by
        cases (addDependencies syms)[i]? <;> rfl
    _ = ((syms[i]?).map resetLinks).map Sym.UID := by rw [h]
    _ = (syms[i]?).map Sym.UID := by cases syms[i]? <;> rfl

theorem buildIndexFrom_congr : ∀ (l1 l2 : List Sym) (i : Nat)
    (d : List (String × Nat)), l1.map Sym.UID = l2.map Sym.UID →
    buildIndexFrom i l1 d = buildIndexFrom i l2 d := by
  intro l1
  induction l1 with
  | nil =>
      intro l2 i d h
      cases l2 with
      | nil => rfl
      | cons t r => exact absurd h (by simp)
  | cons s rest ih =>
      intro l2 i d h
      cases l2 with
      | nil => exact absurd h (by simp)
      | cons t rest2 =>
          simp only [List.map_cons, List.cons.injEq] at h
          obtain ⟨hu, hr⟩ := h
          show buildIndexFrom (i + 1) rest (dictInsert s.UID i d) =
            buildIndexFrom (i + 1) rest2 (dictInsert t.UID i d)
          rw [hu]
          exact ih rest2 (i + 1) _ hr

/-- C10: `add_dependencies` reinitializes the three edge lists before
populating them and reads only `UID` and `imports` — both untouched by
linking — so applying it twice equals applying it once. -/
theorem claim_C10_idempotent (syms : List Sym) :
    addDependencies (addDependencies syms) = addDependencies syms := by
  have hcore := map_resetLinks_addDependencies syms
  have huid := map_UID_addDependencies syms
  have hidx : buildIndex (addDependencies syms) = buildIndex syms := by
    unfold buildIndex
    exact buildIndexFrom_congr _ _ 0 [] huid
  rw [addDependencies_eq (addDependencies syms), hcore, hidx,
      ← addDependencies_eq syms]

/-! ### C8: per-file failure recovery in `parse_repository` -/

theorem parseStep_fold (rank : String → Nat) (repoRoot : List String) :
    ∀ (files : List FileInfo) (init : List Sym × List String),
      files.foldl (parseStep rank repoRoot) init =
        (init.1 ++ (files.filterMap
            (fun fi => (parseFileE rank repoRoot fi).toOption)).flatten,
         init.2 ++ files.filterMap
            (fun fi =>
              match parseFileE rank repoRoot fi with
              | .ok _ => none
              | .error e =>
                  some ("Error parsing " ++ renderPath fi.pathSegs ++ ": " ++ e))) := by
  intro files
  induction files with
  | nil => intro init; simp
  | cons fi rest ih =>
      intro init
      rw [List.foldl_cons, ih]
      cases hfi : parseFileE rank repoRoot fi with
      | ok syms =>
          simp [parseStep, hfi, List.filterMap_cons, Except.toOption]
      | error e =>
          simp [parseStep, hfi, List.filterMap_cons, Except.toOption]

theorem parseRepository_eq (rank : String → Nat) (repoName : String)
    (root : FSDir) :
    parseRepository rank repoName root =
      ({ repo := { rname := repoName, language := "python",
                   absolute_path := repoName }
         symbols := addDependencies
           ((getIncludedFiles repoName root).foldl
             (parseStep rank [repoName]) ([], [])).1 },
       ((getIncludedFiles repoName root).foldl
         (parseStep rank [repoName]) ([], [])).2) := rfl

/-- C8: a file whose parse raises is logged (path and message) and
contributes nothing; every successfully parsed file's symbols reach
the linked snapshot; the run always completes with the remaining
files' symbols. -/
theorem claim_C8_per_file_recovery (rank : String → Nat) (repoName : String)
    (root : FSDir) :
    ((parseRepository rank repoName root).1.symbols =
      addDependencies ((getIncludedFiles repoName root).filterMap
        (fun fi => (parseFileE rank [repoName] fi).toOption)).flatten) ∧
    ((parseRepository rank repoName root).2 =
      (getIncludedFiles repoName root).filterMap
        (fun fi =>
          match parseFileE rank [repoName] fi with
          | .ok _ => none
          | .error e =>
              some ("Error parsing " ++ renderPath fi.pathSegs ++ ": " ++ e))) ∧
    (∀ fi ∈ getIncludedFiles repoName root, ∀ e : String,
        parseFileE rank [repoName] fi = .error e →
        ("Error parsing " ++ renderPath fi.pathSegs ++ ": " ++ e) ∈
          (parseRepository rank repoName root).2) ∧
    (∀ fi ∈ getIncludedFiles repoName root, ∀ syms : List Sym,
        parseFileE rank [repoName] fi = .ok syms →
        ∀ s ∈ syms,
          s.UID ∈ (parseRepository rank repoName root).1.symbols.map Sym.UID) := by
  have hfold := parseStep_fold rank [repoName] (getIncludedFiles repoName root)
    ([], [])
  have h1 : (parseRepository rank repoName root).1.symbols =
      addDependencies ((getIncludedFiles repoName root).filterMap
        (fun fi => (parseFileE rank [repoName] fi).toOption)).flatten := by
    rw [parseRepository_eq, hfold]
    simp
  have h2 : (parseRepository rank repoName root).2 =
      (getIncludedFiles repoName root).filterMap
        (fun fi =>
          match parseFileE rank [repoName] fi with
          | .ok _ => none
          | .error e =>
              some ("Error parsing " ++ renderPath fi.pathSegs ++ ": " ++ e)) := by
    rw [parseRepository_eq, hfold]
    simp
  refine ⟨h1, h2, ?_, ?_⟩
  · intro fi hfi e he
    rw [h2]
    apply List.mem_filterMap.mpr
    exact ⟨fi, hfi, by rw [he]⟩
  · intro fi hfi syms hsyms s hs
    rw [h1, map_UID_addDependencies]
    apply List.mem_map.mpr
    refine ⟨s, ?_, rfl⟩
    apply List.mem_flatten.mpr
    refine ⟨syms, ?_, hs⟩
    apply List.mem_filterMap.mpr
    exact ⟨fi, hfi, by rw [hsyms]; rfl⟩

/-- Witness for C8 on a repository with one broken and one good file:
the broken file is logged, the good file's symbol is linked into the
snapshot. -/
theorem claim_C8_per_file_recovery_witness :
    (("Error parsing " ++ renderPath ["m", "bad.py"] ++ ": " ++
        "invalid syntax") ∈ (parseRepository rank0 "m" fsMixed).2) ∧
    ((((parseFileE rank0 ["m"]
          ⟨["m", "b.py"], fileB⟩).toOption.getD []).getD 0 default).UID ∈
      (parseRepository rank0 "m" fsMixed).1.symbols.map Sym.UID) :=
  ⟨(claim_C8_per_file_recovery rank0 "m" fsMixed).2.2.1
      ⟨["m", "bad.py"],
       { fsName := "bad.py", size := 7, lines := ["def ("],
         tree := .error "invalid syntax" }⟩
      (List.mem_cons_self _ _) "invalid syntax" rfl,
   (claim_C8_per_file_recovery rank0 "m" fsMixed).2.2.2
      ⟨["m", "b.py"], fileB⟩
      (List.mem_cons_of_mem _ (List.mem_cons_self _ _))
      ((parseFileE rank0 ["m"] ⟨["m", "b.py"], fileB⟩).toOption.getD [])
      rfl _ (by decide)⟩

/-! ### C6: code spans -/

theorem finalizeSym_span (lines : List String) (mq : String) (s0 : Sym) :
    (finalizeSym lines mq s0).start_lineno = s0.start_lineno ∧
    (finalizeSym lines mq s0).end_lineno = s0.end_lineno ∧
    (finalizeSym lines mq s0).code =
      pyJoin "\n" ((lines.take
        (match s0.end_lineno with
         | some e => if e = 0 then (s0.start_lineno - 1) + 1 else e
         | none => (s0.start_lineno - 1) + 1)).drop (s0.start_lineno - 1)) := by
  unfold finalizeSym
  split_ifs <;> exact ⟨rfl, rfl, rfl⟩

theorem parseFileCore_mem (rank : String → Nat) (repoRoot : List String)
    (fi : FileInfo) (body : List PyStmt) (s : Sym)
    (hs : s ∈ parseFileCore rank repoRoot fi body) :
    ∃ s0, s = finalizeSym fi.file.lines (moduleQnameOf repoRoot fi) s0 := by
  unfold parseFileCore at hs
  simp only [List.mem_map] at hs
  obtain ⟨a, -, ha⟩ := hs
  exact ⟨a, ha.symm⟩

theorem pyJoin_append (a b : List String) (ha : a ≠ []) (hb : b ≠ []) :
    pyJoin "\n" (a ++ b) = pyJoin "\n" a ++ "\n" ++ pyJoin "\n" b := by
  induction a with
  | nil => exact absurd rfl ha
  | cons x xs ih =>
      cases xs with
      | nil =>
          cases b with
          | nil => exact absurd rfl hb
          | cons y ys => rfl
      | cons z zs =>
          have ih' := ih (by simp)
          show x ++ "\n" ++ pyJoin "\n" ((z :: zs) ++ b) = _
          rw [ih']
          show _ = x ++ "\n" ++ pyJoin "\n" (z :: zs) ++ "\n" ++ pyJoin "\n" b
          rw [← String.append_assoc, ← String.append_assoc]

theorem take_drop_split (lines : List String) (st e : Nat)
    (h1 : 1 ≤ st) (h2 : st ≤ e) (h3 : e ≤ lines.length) :
    lines.take (st - 1) ++ ((lines.take e).drop (st - 1)) ++ lines.drop e =
      lines := by
  have hmin : min (st - 1) e = st - 1 := by omega
  have hpre : lines.take (st - 1) ++ (lines.take e).drop (st - 1) =
      lines.take e := by
    conv_lhs => rw [show lines.take (st - 1) = (lines.take e).take (st - 1) by
      rw [List.take_take, hmin]]
    exact List.take_append_drop _ _
  rw [List.append_assoc] at *
  rw [← List.append_assoc, hpre, List.take_append_drop]

theorem slice_ne_nil (lines : List String) (st e : Nat)
    (h1 : 1 ≤ st) (h2 : st ≤ e) (h3 : e ≤ lines.length) :
    (lines.take e).drop (st - 1) ≠ [] := by
  have hlen : ((lines.take e).drop (st - 1)).length = e - (st - 1) := by
    rw [List.length_drop, List.length_take]
    omega
  intro hc
  rw [hc] at hlen
  simp at hlen
  omega

/-- C6: every symbol `parse_file` emits carries as `code` the exact
text of the file's lines `start_lineno..end_lineno` inclusive: the
whole file is the prefix before the span, then `code`, then the suffix
after it, with single newline separators at the seams. -/
theorem claim_C6_span_correctness (rank : String → Nat)
    (repoRoot : List String) (fi : FileInfo) (syms : List Sym)
    (hparse : parseFileE rank repoRoot fi = .ok syms)
    (s : Sym) (hs : s ∈ syms) (e : Nat) (he : s.end_lineno = some e)
    (h1 : 1 ≤ s.start_lineno) (h2 : s.start_lineno ≤ e)
    (h3 : e ≤ fi.file.lines.length) :
    s.code = pyJoin "\n" ((fi.file.lines.take e).drop (s.start_lineno - 1)) ∧
    pyJoin "\n" fi.file.lines =
      (if s.start_lineno = 1 then "" else
        pyJoin "\n" (fi.file.lines.take (s.start_lineno - 1)) ++ "\n") ++
      s.code ++
      (if e = fi.file.lines.length then "" else
        "\n" ++ pyJoin "\n" (fi.file.lines.drop e)) := by
  have hsyms : syms = parseFileCore rank repoRoot fi
      ((fi.file.tree.toOption).getD []) := by
    unfold parseFileE at hparse
    cases ht : fi.file.tree with
    | error msg => rw [ht] at hparse; exact absurd hparse (by simp)
    | ok body =>
        rw [ht] at hparse
        have : parseFileCore rank repoRoot fi body = syms := by
          simpa using hparse
        rw [← this]
        rfl
  rw [hsyms] at hs
  obtain ⟨s0, hfin⟩ := parseFileCore_mem rank repoRoot fi _ s hs
  obtain ⟨hst, hen, hcode⟩ := finalizeSym_span fi.file.lines
    (moduleQnameOf repoRoot fi) s0
  rw [← hfin] at hst hen hcode
  have hs0e : s0.end_lineno = some e := by rw [← hen, he]
  have hene : e ≠ 0 := by omega
  have hcode' : s.code =
      pyJoin "\n" ((fi.file.lines.take e).drop (s.start_lineno - 1)) := by
    rw [hcode, hs0e, hst]
    simp [hene]
  refine ⟨hcode', ?_⟩
  set lines := fi.file.lines with hlines
  set st := s.start_lineno with hstl
  have hsplit := take_drop_split lines st e h1 h2 h3
  set mid := (lines.take e).drop (st - 1) with hmid
  have hmidne : mid ≠ [] := slice_ne_nil lines st e h1 h2 h3
  by_cases hst1 : st = 1
  · by_cases hel : e = lines.length
    · rw [if_pos hst1, if_pos hel]
      have : lines = mid := by
        rw [← hsplit, hst1, hel]
        simp
      rw [this, hcode']
      show pyJoin "\n" mid = "" ++ pyJoin "\n" mid ++ ""
      simp
    · rw [if_pos hst1, if_neg hel]
      have hpostne : lines.drop e ≠ [] := by
        intro hc
        have := congrArg List.length hc
        rw [List.length_drop] at this
        simp at this
        omega
      have : lines = mid ++ lines.drop e := by
        conv_lhs => rw [← hsplit]
        rw [hst1]
        simp
      conv_lhs => rw [this]
      rw [pyJoin_append mid (lines.drop e) hmidne hpostne, hcode']
      show _ = "" ++ pyJoin "\n" mid ++ ("\n" ++ pyJoin "\n" (lines.drop e))
      simp [String.append_assoc]
  · have hprene : lines.take (st - 1) ≠ [] := by
      intro hc
      have hlen0 := congrArg List.length hc
      rw [List.length_take] at hlen0
      simp only [List.length_nil] at hlen0
      rw [Nat.min_eq_zero_iff] at hlen0
      rcases hlen0 with hz | hz <;> omega
    by_cases hel : e = lines.length
    · rw [if_neg hst1, if_pos hel]
      have : lines = lines.take (st - 1) ++ mid := by
        conv_lhs => rw [← hsplit]
        rw [hel]
        simp
      conv_lhs => rw [this]
      rw [pyJoin_append _ mid hprene hmidne, hcode']
      show _ = pyJoin "\n" (lines.take (st - 1)) ++ "\n" ++ pyJoin "\n" mid ++ ""
      simp
    · rw [if_neg hst1, if_neg hel]
      have hpostne : lines.drop e ≠ [] := by
        intro hc
        have := congrArg List.length hc
        rw [List.length_drop] at this
        simp at this
        omega
      have : lines = lines.take (st - 1) ++ (mid ++ lines.drop e) := by
        conv_lhs => rw [← hsplit]
        rw [List.append_assoc]
      conv_lhs => rw [this]
      rw [pyJoin_append _ (mid ++ lines.drop e) hprene (by simp [hmidne]),
          pyJoin_append mid (lines.drop e) hmidne hpostne, hcode']
      simp [String.append_assoc]

/-- Witness for C6 at `a.py`'s `foo` (lines 2..2 of the two-line file). -/
theorem claim_C6_span_correctness_witness :
    ((((parseFileE rank0 ["r"] fiA).toOption.getD []).getD 0 default).code =
      pyJoin "\n" ((fiA.file.lines.take 2).drop
        ((((parseFileE rank0 ["r"] fiA).toOption.getD []).getD 0
            default).start_lineno - 1))) ∧
    (pyJoin "\n" fiA.file.lines =
      (if (((parseFileE rank0 ["r"] fiA).toOption.getD []).getD 0
            default).start_lineno = 1 then "" else
        pyJoin "\n" (fiA.file.lines.take
          ((((parseFileE rank0 ["r"] fiA).toOption.getD []).getD 0
              default).start_lineno - 1)) ++ "\n") ++
      (((parseFileE rank0 ["r"] fiA).toOption.getD []).getD 0 default).code ++
      (if 2 = fiA.file.lines.length then "" else
        "\n" ++ pyJoin "\n" (fiA.file.lines.drop 2))) :=
  claim_C6_span_correctness rank0 ["r"] fiA
    ((parseFileE rank0 ["r"] fiA).toOption.getD []) rfl
    ((((parseFileE rank0 ["r"] fiA).toOption.getD []).getD 0 default))
    (by decide) 2 (by decide) (by decide) (by decide) (by decide)

/-! ### C5: characters, splitting and joining of path strings -/

theorem lowerChar_bs : lowerChar '\x5c' = '\x5c' := rfl

theorem lowerChar_eq_bs {c : Char} (h : lowerChar c = '\x5c') : c = '\x5c' := by
  unfold lowerChar at h
  split at h <;> first | exact absurd h (by decide) | exact h

theorem splitChar_ne_nil (sep : Char) (l : List Char) :
    splitChar sep l ≠ [] := by
  cases l with
  | nil => simp [splitChar]
  | cons c cs =>
      unfold splitChar
      cases h : splitChar sep cs with
      | nil => simp
      | cons g gs => by_cases hc : c = sep <;> simp [hc]

theorem splitChar_cons_eq {sep c : Char} {cs g : List Char}
    {gs : List (List Char)} (h : splitChar sep cs = g :: gs) :
    splitChar sep (c :: cs) =
      if c = sep then [] :: g :: gs else (c :: g) :: gs := by
  show (match splitChar sep cs with
    | [] => [[c]]
    | g :: gs => if c = sep then [] :: g :: gs else (c :: g) :: gs) = _
  rw [h]

theorem joinChar_cons₂ (sep : Char) (x y : List Char)
    (rest : List (List Char)) :
    joinChar sep (x :: y :: rest) = x ++ sep :: joinChar sep (y :: rest) := rfl

theorem joinChar_splitChar (sep : Char) (l : List Char) :
    joinChar sep (splitChar sep l) = l := by
  induction l with
  | nil => rfl
  | cons c cs ih =>
      cases h : splitChar sep cs with
      | nil => exact absurd h (splitChar_ne_nil sep cs)
      | cons g gs =>
          rw [h] at ih
          rw [splitChar_cons_eq h]
          by_cases hc : c = sep
          · rw [if_pos hc, joinChar_cons₂, ih]
            simp [hc]
          · rw [if_neg hc]
            cases gs with
            | nil =>
                have hg : g = cs := by simpa [joinChar] using ih
                simp [joinChar, hg]
            | cons g2 gs2 =>
                have ih2 : g ++ sep :: joinChar sep (g2 :: gs2) = cs := by
                  simpa [joinChar_cons₂] using ih
                rw [joinChar_cons₂, ← ih2]
                simp

theorem splitChar_sepfree {sep : Char} {l : List Char} (h : sep ∉ l) :
    splitChar sep l = [l] := by
  induction l with
  | nil => rfl
  | cons c cs ih =>
      have hc : ¬ (c = sep) := fun hc => h (by simp [hc])
      have hcs : sep ∉ cs := fun hm => h (by simp [hm])
      rw [splitChar_cons_eq (ih hcs), if_neg hc]

theorem splitChar_append_sep (sep : Char) (a b : List Char) :
    splitChar sep (a ++ sep :: b) = splitChar sep a ++ splitChar sep b := by
  induction a with
  | nil =>
      cases hb : splitChar sep b with
      | nil => exact absurd hb (splitChar_ne_nil sep b)
      | cons gb gbs =>
          show splitChar sep (sep :: b) = [[]] ++ (gb :: gbs)
          rw [splitChar_cons_eq hb, if_pos rfl]
          rfl
  | cons c a' ih =>
      cases h : splitChar sep a' with
      | nil => exact absurd h (splitChar_ne_nil sep a')
      | cons g gs =>
          cases hb : splitChar sep b with
          | nil => exact absurd hb (splitChar_ne_nil sep b)
          | cons gb gbs =>
              have hL : splitChar sep (a' ++ sep :: b) =
                  g :: (gs ++ gb :: gbs) := by
                rw [ih, h, hb]
                rfl
              show splitChar sep (c :: (a' ++ sep :: b)) = _
              rw [splitChar_cons_eq hL, splitChar_cons_eq h]
              by_cases hc : c = sep <;> simp [hc]

theorem joinChar_append (sep : Char) (a b : List (List Char))
    (ha : a ≠ []) (hb : b ≠ []) :
    joinChar sep (a ++ b) = joinChar sep a ++ sep :: joinChar sep b := by
  induction a with
  | nil => exact absurd rfl ha
  | cons x xs ih =>
      cases xs with
      | nil =>
          cases b with
          | nil => exact absurd rfl hb
          | cons y ys => rfl
      | cons z zs =>
          have ih' := ih (by simp)
          show joinChar sep (x :: ((z :: zs) ++ b)) = _
          rw [show x :: ((z :: zs) ++ b) = x :: z :: (zs ++ b) from rfl]
          rw [joinChar_cons₂]
          rw [show (z : List Char) :: (zs ++ b) = (z :: zs) ++ b from rfl, ih']
          rw [joinChar_cons₂]
          simp

theorem stemOfChars_append_py (pre : List Char) (hpre : pre ≠ []) :
    stemOfChars (pre ++ ('.' :: 'p' :: 'y' :: [])) = pre := by
  unfold stemOfChars
  have hsplit : splitChar '.' (pre ++ ('.' :: 'p' :: 'y' :: [])) =
      splitChar '.' pre ++ [['p', 'y']] := by
    rw [splitChar_append_sep]
    rfl
  rw [hsplit]
  cases hp : splitChar '.' pre with
  | nil => exact absurd hp (splitChar_ne_nil '.' pre)
  | cons g gs =>
      show (if gs ++ [['p', 'y']] = [] then _
        else if g = [] ∧ (gs ++ [['p', 'y']]).length = 1 then _
        else joinChar '.' (g :: (gs ++ [['p', 'y']]).dropLast)) = pre
      rw [if_neg (by simp)]
      by_cases hg : g = [] ∧ (gs ++ [['p', 'y']]).length = 1
      · obtain ⟨hg1, hg2⟩ := hg
        have hgs : gs = [] := by
          rw [List.length_append] at hg2
          simp at hg2
          exact hg2
        exfalso
        apply hpre
        have hj := joinChar_splitChar '.' pre
        rw [hp, hg1, hgs] at hj
        simpa [joinChar] using hj.symm
      · rw [if_neg hg]
        have hdrop : (gs ++ [['p', 'y']]).dropLast = gs := by simp
        rw [hdrop]
        have hj := joinChar_splitChar '.' pre
        rw [hp] at hj
        exact hj

/-! ### C5: occurrences of `\x5cword\x5c` in a separator-joined path -/

theorem sep_occurrence {sep : Char} {w x R : List Char} (hx : sep ∉ x)
    (h : (sep :: w ++ [sep]) <:+: (x ++ sep :: R)) :
    ((w ++ [sep]) <+: R) ∨ (sep :: w ++ [sep]) <:+: R := by
  induction x with
  | nil =>
      obtain ⟨s, t, hst⟩ := h
      cases s with
      | nil =>
          left
          have h' : sep :: ((w ++ [sep]) ++ t) = sep :: R := hst
          rw [List.cons.injEq] at h'
          exact ⟨t, h'.2⟩
      | cons c s' =>
          right
          have h' : c :: (s' ++ (sep :: w ++ [sep]) ++ t) = sep :: R := hst
          rw [List.cons.injEq] at h'
          exact ⟨s', t, h'.2⟩
  | cons c x' ih =>
      have hc : c ≠ sep := fun hc => hx (by simp [hc])
      obtain ⟨s, t, hst⟩ := h
      cases s with
      | nil =>
          exfalso
          have h' : sep :: ((w ++ [sep]) ++ t) = c :: (x' ++ sep :: R) := hst
          rw [List.cons.injEq] at h'
          exact hc h'.1.symm
      | cons d s' =>
          have h' : d :: (s' ++ (sep :: w ++ [sep]) ++ t) =
              c :: (x' ++ sep :: R) := hst
          rw [List.cons.injEq] at h'
          exact ih (fun hm => hx (List.mem_cons_of_mem _ hm)) ⟨s', t, h'.2⟩

theorem eq_of_sepfree_append {sep : Char} :
    ∀ {a b t u : List Char}, sep ∉ a → sep ∉ b →
      a ++ sep :: t = b ++ sep :: u → a = b ∧ t = u := by
  intro a
  induction a with
  | nil =>
      intro b t u _ hb h
      cases b with
      | nil =>
          have h' : sep :: t = sep :: u := h
          rw [List.cons.injEq] at h'
          exact ⟨rfl, h'.2⟩
      | cons d b' =>
          have h' : sep :: t = d :: (b' ++ sep :: u) := h
          rw [List.cons.injEq] at h'
          exact absurd (by simp [← h'.1]) hb
  | cons c a' ih =>
      intro b t u ha hb h
      cases b with
      | nil =>
          have h' : c :: (a' ++ sep :: t) = sep :: u := h
          rw [List.cons.injEq] at h'
          exact absurd (by simp [h'.1]) ha
      | cons d b' =>
          have h' : c :: (a' ++ sep :: t) = d :: (b' ++ sep :: u) := h
          rw [List.cons.injEq] at h'
          obtain ⟨hab, htu⟩ := ih (fun hm => ha (List.mem_cons_of_mem _ hm))
            (fun hm => hb (List.mem_cons_of_mem _ hm)) h'.2
          exact ⟨by rw [h'.1, hab], htu⟩

theorem prefix_first_chunk {sep : Char} {w : List Char} (hw : sep ∉ w) :
    ∀ {L : List (List Char)} {t : List Char}, (∀ x ∈ L, sep ∉ x) →
      w ++ sep :: t = joinChar sep L →
      ∃ l2, L = w :: l2 ∧ l2 ≠ [] := by
  intro L
  cases L with
  | nil =>
      intro t _ h
      exfalso
      have : (w ++ sep :: t).length = 0 := by rw [h]; rfl
      simp at this
  | cons y L' =>
      cases L' with
      | nil =>
          intro t hL h
          exfalso
          have hy : sep ∉ y := hL y (by simp)
          apply hy
          rw [show joinChar sep [y] = y from rfl] at h
          rw [← h]
          simp
      | cons z L'' =>
          intro t hL h
          rw [joinChar_cons₂] at h
          obtain ⟨hab, -⟩ := eq_of_sepfree_append hw (hL y (by simp)) h
          exact ⟨z :: L'', by rw [hab], by simp⟩

theorem infix_joinChar_iff {sep : Char} {w : List Char} (hw : sep ∉ w) :
    ∀ (L : List (List Char)), (∀ x ∈ L, sep ∉ x) →
      ((sep :: w ++ [sep]) <:+: joinChar sep L ↔
        ∃ l1 l2, L = l1 ++ w :: l2 ∧ l1 ≠ [] ∧ l2 ≠ []) := by
  intro L
  induction L with
  | nil =>
      intro _
      constructor
      · rintro ⟨s, t, hst⟩
        exfalso
        have : (s ++ (sep :: w ++ [sep]) ++ t).length = 0 := by rw [hst]; rfl
        simp at this
      · rintro ⟨l1, l2, hL, -, -⟩
        exact absurd hL (by simp)
  | cons x L' ih =>
      intro hL
      cases L' with
      | nil =>
          constructor
          · intro h
            exfalso
            have hsub := h.subset
            have : sep ∈ joinChar sep [x] := hsub (by simp)
            rw [show joinChar sep [x] = x from rfl] at this
            exact hL x (by simp) this
          · rintro ⟨l1, l2, hL', h1, h2⟩
            exfalso
            rcases l1 with - | ⟨a, l1'⟩
            · exact h1 rfl
            · have : ([x] : List (List Char)).length =
                  (a :: l1' ++ w :: l2).length := by rw [hL']
              simp [List.length_append] at this
      | cons y L'' =>
          have ihy := ih (fun u hu => hL u (List.mem_cons_of_mem _ hu))
          constructor
          · intro h
            rw [joinChar_cons₂] at h
            rcases sep_occurrence (hL x (by simp)) h with hpre | hinf
            · obtain ⟨t, ht⟩ := hpre
              have ht' : w ++ sep :: t = joinChar sep (y :: L'') := by
                rw [← ht]
                simp
              obtain ⟨l2, hyl, hl2⟩ := prefix_first_chunk hw
                (fun u hu => hL u (List.mem_cons_of_mem _ hu)) ht'
              exact ⟨[x], l2, by rw [hyl]; rfl, by simp, hl2⟩
            · obtain ⟨l1, l2, hL', h1, h2⟩ := ihy.mp hinf
              exact ⟨x :: l1, l2, by rw [hL']; rfl, by simp, h2⟩
          · rintro ⟨l1, l2, hL', h1, h2⟩
            rcases l1 with - | ⟨a, l1'⟩
            · exact absurd rfl h1
            · have hxa : x = a ∧ (y :: L'') = l1' ++ w :: l2 := by
                have h' : x :: (y :: L'') = a :: (l1' ++ w :: l2) := hL'
                rw [List.cons.injEq] at h'
                exact h'
              obtain ⟨rfl, hrest⟩ := hxa
              rcases l1' with - | ⟨b, l1''⟩
              · have hyw : y = w ∧ L'' = l2 := by
                  have h' : y :: L'' = w :: l2 := hrest
                  rw [List.cons.injEq] at h'
                  exact h'
                obtain ⟨rfl, hl2eq⟩ := hyw
                rw [joinChar_cons₂]
                cases hc2 : L'' with
                | nil =>
                    rw [hc2] at hl2eq
                    exact absurd hl2eq.symm h2
                | cons m l2' =>
                    rw [joinChar_cons₂]
                    refine ⟨x, joinChar sep (m :: l2'), ?_⟩
                    simp
              · have hinf : (sep :: w ++ [sep]) <:+: joinChar sep (y :: L'') :=
                  ihy.mpr ⟨b :: l1'', l2, hrest, by simp, h2⟩
                rw [joinChar_cons₂]
                obtain ⟨s, t, hst⟩ := hinf
                exact ⟨x ++ sep :: s, t, by rw [← hst]; simp⟩

theorem map_decomp_iff {α β : Type} (f : α → β) (w : β) (l : List α) :
    (∃ L1 L2, l.map f = L1 ++ w :: L2 ∧ L1 ≠ [] ∧ L2 ≠ []) ↔
    (∃ l1 d l2, l = l1 ++ d :: l2 ∧ f d = w ∧ l1 ≠ [] ∧ l2 ≠ []) := by
  constructor
  · rintro ⟨L1, L2, heq, h1, h2⟩
    induction l generalizing L1 with
    | nil => exact absurd heq (by simp)
    | cons a l' ih =>
        cases L1 with
        | nil => exact absurd rfl h1
        | cons b L1' =>
            have h' : f a :: l'.map f = b :: (L1' ++ w :: L2) := heq
            rw [List.cons.injEq] at h'
            obtain ⟨-, hmap⟩ := h'
            cases L1' with
            | nil =>
                cases l' with
                | nil => exact absurd hmap (by simp)
                | cons d l'' =>
                    have h'' : f d :: l''.map f = w :: L2 := hmap
                    rw [List.cons.injEq] at h''
                    obtain ⟨hfd, hL2⟩ := h''
                    refine ⟨[a], d, l'', rfl, hfd, by simp, ?_⟩
                    intro hc
                    rw [hc] at hL2
                    exact h2 (by simpa using hL2.symm)
            | cons c L1'' =>
                obtain ⟨l1, d, l2, hdec, hfd, hl1, hl2⟩ :=
                  ih (c :: L1'') hmap (by simp)
                exact ⟨a :: l1, d, l2, by rw [hdec]; rfl, hfd, by simp, hl2⟩
  · rintro ⟨l1, d, l2, rfl, hfd, h1, h2⟩
    refine ⟨l1.map f, l2.map f, by simp [hfd], by simpa using h1,
      by simpa using h2⟩

theorem prefix_append_dot {p a b : List Char} (hp : '.' ∉ p) :
    p <+: a ++ '.' :: b ↔ p <+: a := by
  constructor
  · intro h
    rcases le_or_lt p.length a.length with hle | hgt
    · exact List.prefix_of_prefix_length_le h (List.prefix_append a _) hle
    · exfalso
      obtain ⟨t, ht⟩ := h
      have h1 : (a ++ '.' :: b)[a.length]? = some '.' := by
        rw [List.getElem?_append_right (Nat.le_refl _)]
        simp
      have h2 : (a ++ '.' :: b)[a.length]? = p[a.length]? := by
        rw [← ht, List.getElem?_append, if_pos hgt]
      have h3 : p[a.length]? = some '.' := by rw [← h2, h1]
      exact hp (mem_of_getElem?' h3)
  · intro h
    exact h.trans (List.prefix_append a _)

theorem suffix_append_cancel {w a c : List Char} :
    (w ++ c) <:+ (a ++ c) ↔ w <:+ a := by
  constructor
  · rintro ⟨s, hs⟩
    rw [← List.append_assoc] at hs
    exact ⟨s, List.append_cancel_right hs⟩
  · rintro ⟨s, hs⟩
    exact ⟨s, by rw [← List.append_assoc, hs]⟩

theorem pyJoin_bs_data (segs : List String) :
    (pyJoin "\x5c" segs).data = joinChar '\x5c' (segs.map String.data) := by
  induction segs with
  | nil => rfl
  | cons x xs ih =>
      cases xs with
      | nil => rfl
      | cons y ys =>
          show (x ++ "\x5c" ++ pyJoin "\x5c" (y :: ys)).data =
            joinChar '\x5c' (x.data :: y.data :: List.map String.data ys)
          rw [String.data_append, String.data_append, ih, joinChar_cons₂]
          rw [List.append_assoc]
          rfl

theorem map_lowerChar_joinChar (L : List (List Char)) :
    (joinChar '\x5c' L).map lowerChar =
      joinChar '\x5c' (L.map (List.map lowerChar)) := by
  induction L with
  | nil => rfl
  | cons x xs ih =>
      cases xs with
      | nil => rfl
      | cons y ys =>
          show List.map lowerChar (x ++ '\x5c' :: joinChar '\x5c' (y :: ys)) =
            joinChar '\x5c' (List.map lowerChar x :: List.map lowerChar y ::
              List.map (List.map lowerChar) ys)
          rw [joinChar_cons₂, List.map_append, List.map_cons, lowerChar_bs, ih]
          rfl

theorem nameConv_iff_stem (nm : String)
    (hpy : pyEndsWith nm ".py" = true) :
    ((pyStartsWith nm "test_" = true ∨ pyEndsWith nm "_test.py" = true ∨
      pyStartsWith nm "tests_" = true ∨ pyEndsWith nm "_tests.py" = true) ↔
      stemMatchesTestConvention (stemOf nm)) := by
  have hsuf : (".py".data : List Char) <:+ nm.data := by
    have := hpy
    unfold pyEndsWith at this
    exact (List.isSuffixOf_iff_suffix).mp this
  obtain ⟨t, ht⟩ := hsuf
  by_cases htn : t = []
  · subst htn
    have hnm : nm = ".py" := String.ext (by rw [← ht]; rfl)
    subst hnm
    decide
  · have hdata : nm.data = t ++ ('.' :: 'p' :: 'y' :: []) := by
      rw [← ht]
    have hstem : (stemOf nm).data = t := by
      show (stemOfChars nm.data) = t
      rw [hdata, stemOfChars_append_py t htn]
    unfold stemMatchesTestConvention pyStartsWith pyEndsWith
    rw [hstem, hdata]
    rw [List.isPrefixOf_iff_prefix, List.isPrefixOf_iff_prefix,
        List.isPrefixOf_iff_prefix, List.isPrefixOf_iff_prefix,
        List.isSuffixOf_iff_suffix, List.isSuffixOf_iff_suffix,
        List.isSuffixOf_iff_suffix, List.isSuffixOf_iff_suffix]
    rw [prefix_append_dot (by decide), prefix_append_dot (by decide)]
    have e1 : ("_test.py".data : List Char) =
        "_test".data ++ ('.' :: 'p' :: 'y' :: []) := rfl
    have e2 : ("_tests.py".data : List Char) =
        "_tests".data ++ ('.' :: 'p' :: 'y' :: []) := rfl
    rw [e1, e2, suffix_append_cancel, suffix_append_cancel]

theorem dirSegment_iff (segs : List String) (w nd : String)
    (hw : '\x5c' ∉ w.data)
    (hnd : nd.data = '\x5c' :: w.data ++ ['\x5c'])
    (hwf : ∀ seg ∈ segs, '\x5c' ∉ seg.data) :
    strContains (pyLower (renderPath segs)) nd ↔
      ∃ l1 d l2, segs = l1 ++ d :: l2 ∧ l1 ≠ [] ∧ l2 ≠ [] ∧
        pyLower d = w := by
  unfold strContains
  have hhay : (pyLower (renderPath segs)).data =
      joinChar '\x5c' (segs.map (fun s => s.data.map lowerChar)) := by
    show ((renderPath segs).data.map lowerChar) = _
    unfold renderPath
    rw [pyJoin_bs_data, map_lowerChar_joinChar, List.map_map]
    rfl
  rw [hhay, hnd]
  have hL : ∀ x ∈ segs.map (fun s => s.data.map lowerChar), '\x5c' ∉ x := by
    intro x hx
    rw [List.mem_map] at hx
    obtain ⟨seg, hseg, rfl⟩ := hx
    intro hc
    rw [List.mem_map] at hc
    obtain ⟨c, hcm, hlc⟩ := hc
    rw [lowerChar_eq_bs hlc] at hcm
    exact hwf seg hseg hcm
  rw [infix_joinChar_iff hw (segs.map _) hL, map_decomp_iff]
  constructor
  · rintro ⟨l1, d, l2, rfl, hfd, h1, h2⟩
    exact ⟨l1, d, l2, rfl, h1, h2, String.ext hfd⟩
  · rintro ⟨l1, d, l2, rfl, h1, h2, hlow⟩
    exact ⟨l1, d, l2, rfl, congrArg String.data hlow, h1, h2⟩

/-- `is_test_file` holds exactly for an interior test-named directory
segment or a test-named filename stem. -/
theorem isTestFile_iff (fi : FileInfo)
    (hwf : ∀ seg ∈ fi.pathSegs, '\x5c' ∉ seg.data)
    (hpy : pyEndsWith fi.file.fsName ".py" = true) :
    (isTestFile fi = true ↔
      ((∃ l1 d l2, fi.pathSegs = l1 ++ d :: l2 ∧ l1 ≠ [] ∧ l2 ≠ [] ∧
          isTestDirName d) ∨
        stemMatchesTestConvention (stemOf fi.file.fsName))) := by
  have hconv := nameConv_iff_stem fi.file.fsName hpy
  unfold isTestFile
  simp only [Bool.or_eq_true, decide_eq_true_eq]
  rw [dirSegment_iff fi.pathSegs "tests" "\x5ctests\x5c" (by decide)
      (by decide) hwf,
     dirSegment_iff fi.pathSegs "test" "\x5ctest\x5c" (by decide)
      (by decide) hwf]
  constructor
  · rintro (((((⟨l1, d, l2, hdec, h1, h2, hlow⟩ |
        ⟨l1, d, l2, hdec, h1, h2, hlow⟩) | hc1) | hc2) | hc3) | hc4)
    · exact Or.inl ⟨l1, d, l2, hdec, h1, h2, Or.inr hlow⟩
    · exact Or.inl ⟨l1, d, l2, hdec, h1, h2, Or.inl hlow⟩
    · exact Or.inr (hconv.mp (Or.inl hc1))
    · exact Or.inr (hconv.mp (Or.inr (Or.inl hc2)))
    · exact Or.inr (hconv.mp (Or.inr (Or.inr (Or.inl hc3))))
    · exact Or.inr (hconv.mp (Or.inr (Or.inr (Or.inr hc4))))
  · rintro (⟨l1, d, l2, hdec, h1, h2, hlow | hlow⟩ | hstem)
    · exact Or.inl (Or.inl (Or.inl (Or.inl
        (Or.inr ⟨l1, d, l2, hdec, h1, h2, hlow⟩))))
    · exact Or.inl (Or.inl (Or.inl (Or.inl
        (Or.inl ⟨l1, d, l2, hdec, h1, h2, hlow⟩))))
    · rcases hconv.mpr hstem with hc1 | hc2 | hc3 | hc4
      · exact Or.inl (Or.inl (Or.inl (Or.inr hc1)))
      · exact Or.inl (Or.inl (Or.inr hc2))
      · exact Or.inl (Or.inr hc3)
      · exact Or.inr hc4

theorem traverseCodebase_mem {repoName : String} {root : FSDir}
    {fi : FileInfo} (h : fi ∈ traverseCodebase repoName root) :
    pyEndsWith fi.file.fsName ".py" = true ∧
      ∃ p, fi.pathSegs = p ++ [fi.file.fsName] := by
  unfold traverseCodebase at h
  rw [List.mem_flatten] at h
  obtain ⟨g, hg, hfig⟩ := h
  rw [List.mem_map] at hg
  obtain ⟨rf, -, rfl⟩ := hg
  rw [List.mem_map] at hfig
  obtain ⟨f, hf, rfl⟩ := hfig
  exact ⟨(List.mem_filter.mp hf).2, rf.1, rfl⟩

/-- C5, amended: discovery includes exactly the non-empty `.py` files
that carry no *interior* test-named directory segment (a segment
strictly between the walk root and the filename, case-insensitively
`test`/`tests`) and no test-named filename stem.  The original claim
fails only in that the leading path segment (the repository root
itself) is never treated as a test directory. -/
theorem claim_C5_amended (repoName : String) (root : FSDir) (fi : FileInfo)
    (hmem : fi ∈ traverseCodebase repoName root)
    (hwf : ∀ seg ∈ fi.pathSegs, '\x5c' ∉ seg.data) :
    pyEndsWith fi.file.fsName ".py" = true ∧
    (fi ∈ getIncludedFiles repoName root ↔
      (fi.file.size ≠ 0 ∧
       ¬ (∃ l1 d l2, fi.pathSegs = l1 ++ d :: l2 ∧ l1 ≠ [] ∧ l2 ≠ [] ∧
            isTestDirName d) ∧
       ¬ stemMatchesTestConvention (stemOf fi.file.fsName))) := by
  obtain ⟨hpy, -⟩ := traverseCodebase_mem hmem
  refine ⟨hpy, ?_⟩
  have hiff := isTestFile_iff fi hwf hpy
  have hbool : (!(fi.file.size == 0 || isTestFile fi)) = true ↔
      (¬ fi.file.size = 0 ∧ ¬ isTestFile fi = true) := by simp
  unfold getIncludedFiles
  rw [List.mem_filter]
  constructor
  · rintro ⟨-, hcond⟩
    obtain ⟨h1, h2⟩ := hbool.mp hcond
    rw [hiff] at h2
    exact ⟨h1, fun hd => h2 (Or.inl hd), fun hc => h2 (Or.inr hc)⟩
  · rintro ⟨h1, hd, hc⟩
    refine ⟨hmem, hbool.mpr ⟨h1, ?_⟩⟩
    rw [hiff]
    rintro (h | h)
    · exact hd h
    · exact hc h

/-- Witness for the amended C5 at a regular file of the discovery
fixture repository. -/
theorem claim_C5_amended_witness :
    pyEndsWith fiMain.file.fsName ".py" = true ∧
    (fiMain ∈ getIncludedFiles "r" fsDiscovery ↔
      (fiMain.file.size ≠ 0 ∧
       ¬ (∃ l1 d l2, fiMain.pathSegs = l1 ++ d :: l2 ∧ l1 ≠ [] ∧ l2 ≠ [] ∧
            isTestDirName d) ∧
       ¬ stemMatchesTestConvention (stemOf fiMain.file.fsName))) :=
  claim_C5_amended "r" fsDiscovery fiMain (List.mem_cons_self _ _) (by decide)

end CodeBot
